import Mathlib

/-!
Verification development for the `scot` local hybrid code-search engine.

Shallow embedding of the core components (chunker, BM25 lexical index,
reciprocal rank fusion, SQLite-backed index store, incremental indexer,
query cache and the search pipeline) together with theorems that settle
the specification claims.

Modelling conventions:
* Python floats are modelled as real numbers (`ℝ`) where transcendental
  functions (`math.log`, `sqrt`) appear, and as rationals (`ℚ`) where the
  arithmetic is exact (file modification times, RRF scores).
* Python `str.splitlines` is modelled for the `"\n"` separator.
* External collaborators (the git file lister, the embedding provider and
  Python's `ast.parse`) are parameters of the embedded functions.
* SQLite tables are modelled as lists kept in insertion (rowid) order.
-/

set_option linter.unusedVariables false

namespace Scot

/-- Split a character list on a separator character; always returns one
more part than the number of separator occurrences. -/
def splitChars (sep : Char) : List Char → List (List Char)
  | [] => [[]]
  | c :: rest =>
      match splitChars sep rest with
      | [] => [[]]
      | part :: parts =>
          if c = sep then [] :: part :: parts else (c :: part) :: parts

/-- Python `str.splitlines` restricted to the `"\n"` separator: split on
newlines and drop the final part exactly when it is empty, so a trailing
newline does not create a final empty line and the empty string has no
lines. -/
def splitlines (s : String) : List String :=
  let parts := (splitChars '\n' s.toList).map (fun l => String.mk l)
  if parts.getLast? = some "" then parts.dropLast else parts

/-- Python `"\n".join(lines)`. -/
def joinLines (l : List String) : String := String.intercalate "\n" l

/-- Index of the last `'.'` of the final path component, mirroring
`pathlib.PurePath.suffix`: the extension including the dot, empty for
hidden files and names without an interior dot. -/
def pathSuffix (p : String) : String :=
  let name := (splitChars '/' p.toList).getLastD []
  match ((List.range name.length).filter (fun i => name.getD i ' ' = '.')).getLast? with
  | some i => if 0 < i ∧ i + 1 < name.length then String.mk (name.drop i) else ""
  | none => ""

/-! ## Chunker (`src/scot/chunker.py`) -/

/-- A chunk of code with location info (`chunker.Chunk`). -/
structure Chunk where
  text : String
  start_line : ℕ
  end_line : ℕ
deriving DecidableEq, Repr

/-- `config.CHUNK_SIZE_LINES`. -/
def CHUNK_SIZE_LINES : ℕ := 50

/-- `config.CHUNK_OVERLAP_LINES`. -/
def CHUNK_OVERLAP_LINES : ℕ := 10

/-- The `while start < len(lines)` sliding-window loop of `chunk_lines`:
each window is `lines[start:start+W]` clipped to the file end, and the
start advances by the stride `W − O`. -/
def slidingChunks (lines : List String) (start : ℕ) : List Chunk :=
  if h : start < lines.length then
    let e := min (start + CHUNK_SIZE_LINES) lines.length
    ⟨joinLines ((lines.drop start).take (e - start)), start + 1, e⟩ ::
      slidingChunks lines (start + (CHUNK_SIZE_LINES - CHUNK_OVERLAP_LINES))
  else []
termination_by lines.length - start
decreasing_by simp only [CHUNK_SIZE_LINES, CHUNK_OVERLAP_LINES]; omega

/-- `chunker.chunk_lines`: line-based chunking with overlap. -/
def chunk_lines (content : String) : List Chunk :=
  let lines := splitlines content
  if lines.isEmpty then []
  else if lines.length ≤ CHUNK_SIZE_LINES then [⟨content, 1, lines.length⟩]
  else slidingChunks lines 0

/-- Number of leading `'#'` characters of a line. -/
def headerLevel (line : String) : ℕ := (line.toList.takeWhile (fun c => c = '#')).length

/-- Whether a line is a Markdown header line (starts with `'#'`). -/
def isHeaderLine (line : String) : Bool :=
  match line.toList with
  | c :: _ => c = '#'
  | [] => false

/-- Modelled from the spec: the function `chunk_markdown` called by
`chunk_file` is not part of the available sources (only its callers and
tests are).  Per §4.1 of the spec: split on header lines, each chunk
spanning from one header (inclusive) to the line before the next header
of equal-or-higher level (smaller or equal `'#'` count); if no headers
exist, fall back to line-based chunking. -/
def chunk_markdown (content : String) : List Chunk :=
  let lines := splitlines content
  let hs := (List.range lines.length).filter (fun i => isHeaderLine (lines.getD i ""))
  if hs.isEmpty then chunk_lines content
  else hs.map (fun i =>
    let lvl := headerLevel (lines.getD i "")
    let stop := ((hs.filter (fun j => i < j ∧ headerLevel (lines.getD j "") ≤ lvl)).head?).getD
      lines.length
    ⟨joinLines ((lines.drop i).take (stop - i)), i + 1, stop⟩)

/-- Shallow embedding of the Python AST shape that `chunk_python`
inspects: modules, (async) function definitions, class definitions, a
leading string-constant expression statement (docstring) and any other
statement.  Only statement children are represented; `endLineno` is
`none` when CPython would report `end_lineno is None`. -/
inductive PyAst where
  | module (body : List PyAst)
  | functionDef (isAsync : Bool) (name : String) (lineno : ℕ) (endLineno : Option ℕ)
      (body : List PyAst)
  | classDef (name : String) (lineno : ℕ) (endLineno : Option ℕ) (body : List PyAst)
  | exprConstantStr (s : String) (lineno : ℕ) (endLineno : Option ℕ)
  | stmt (lineno : ℕ) (endLineno : Option ℕ)

/-- Statement children of a node (`ast.iter_child_nodes` restricted to the
represented shape). -/
def astChildren : PyAst → List PyAst
  | .module b => b
  | .functionDef _ _ _ _ b => b
  | .classDef _ _ _ b => b
  | .exprConstantStr _ _ _ => []
  | .stmt _ _ => []

/-- The `lineno` attribute of a node. -/
def astLineno : PyAst → ℕ
  | .module _ => 1
  | .functionDef _ _ l _ _ => l
  | .classDef _ l _ _ => l
  | .exprConstantStr _ l _ => l
  | .stmt l _ => l

mutual
/-- Structural equality of AST nodes, modelling CPython object identity
(`is`) for the traversals below, where all nodes of interest are
structurally distinct. -/
def PyAst.beq : PyAst → PyAst → Bool
  | .module a, .module a' => PyAst.beqL a a'
  | .functionDef x n l e b, .functionDef x' n' l' e' b' =>
      x == x' && n == n' && l == l' && e == e' && PyAst.beqL b b'
  | .classDef n l e b, .classDef n' l' e' b' =>
      n == n' && l == l' && e == e' && PyAst.beqL b b'
  | .exprConstantStr s l e, .exprConstantStr s' l' e' => s == s' && l == l' && e == e'
  | .stmt l e, .stmt l' e' => l == l' && e == e'
  | _, _ => false

/-- Structural equality of AST node lists. -/
def PyAst.beqL : List PyAst → List PyAst → Bool
  | [], [] => true
  | x :: xs, y :: ys => PyAst.beq x y && PyAst.beqL xs ys
  | _, _ => false
end

mutual
/-- Total number of nodes of a tree (used as breadth-first fuel). -/
def astCount : PyAst → ℕ
  | .module b => 1 + astCountL b
  | .functionDef _ _ _ _ b => 1 + astCountL b
  | .classDef _ _ _ b => 1 + astCountL b
  | .exprConstantStr _ _ _ => 1
  | .stmt _ _ => 1

/-- Total number of nodes of a forest. -/
def astCountL : List PyAst → ℕ
  | [] => 0
  | x :: xs => astCount x + astCountL xs
end

/-- Breadth-first queue traversal; the fuel bounds the number of dequeue
steps, which for a tree equals its node count. -/
def walkAux : ℕ → List PyAst → List PyAst
  | 0, _ => []
  | _ + 1, [] => []
  | fuel + 1, n :: rest => n :: walkAux fuel (rest ++ astChildren n)

/-- `ast.walk`: breadth-first enumeration of all nodes starting at the
root.  `astCount t` dequeue steps exhaust the queue exactly. -/
def ast_walk (t : PyAst) : List PyAst := walkAux (astCount t) [t]

/-- `chunker._find_parent_class`: scan all nodes, and for each class
definition report its name when the target is one of its direct children.
(The source's second fallback loop repeats the same membership test;
CPython object identity is modelled by structural equality.) -/
def find_parent_class (tree : PyAst) (target : PyAst) : Option String :=
  (ast_walk tree).findSome? (fun n =>
    match n with
    | .classDef name _ _ body => if body.any (fun c => PyAst.beq c target) then some name else none
    | _ => none)

/-- `chunker._indent`: prefix each non-empty line with `spaces` blanks
(the source's default of 4 is supplied at each call site). -/
def indentText (text : String) (spaces : ℕ) : String :=
  joinLines ((splitlines text).map (fun line =>
    if line = "" then line else String.mk (List.replicate spaces ' ') ++ line))

/-- The chunk that `chunk_python` emits for a function or method node. -/
def functionChunk (tree : PyAst) (lines : List String) (node : PyAst)
    (lineno : ℕ) (endLineno : Option ℕ) : Chunk :=
  let start_line := lineno
  let end_line := endLineno.getD start_line
  let node_lines := (lines.drop (start_line - 1)).take (end_line - (start_line - 1))
  let base := joinLines node_lines
  let parent := find_parent_class tree node
  let chunk_text :=
    match parent with
    | some pc => "class " ++ pc ++ ":\n" ++ indentText base 4
    | none => base
  let chunk_text :=
    if node_lines.length > CHUNK_SIZE_LINES then
      let preview_lines := node_lines.take (CHUNK_SIZE_LINES - 2)
      let remaining := node_lines.length - preview_lines.length
      match parent with
      | some pc =>
          "class " ++ pc ++ ":\n" ++ indentText (joinLines preview_lines) 4 ++
            "\n        # ... (" ++ toString remaining ++ " more lines)"
      | none =>
          joinLines preview_lines ++ "\n    # ... (" ++ toString remaining ++ " more lines)"
    else chunk_text
  ⟨chunk_text, start_line, end_line⟩

/-- The chunk that `chunk_python` emits for a class node: signature plus
docstring when present, otherwise a short preview of the body. -/
def classChunk (lines : List String) (lineno : ℕ) (body : List PyAst) : Chunk :=
  let start_line := lineno
  let class_line := lines.getD (start_line - 1) ""
  match body.head? with
  | some (.exprConstantStr _ _ docEnd) =>
      let doc_end := docEnd.getD start_line
      ⟨class_line ++ "\n" ++ joinLines ((lines.drop start_line).take (doc_end - start_line)),
        start_line, doc_end⟩
  | _ =>
      let body_start := match body.head? with
        | some b => astLineno b
        | none => start_line + 1
      let preview_end := min (body_start + 2) (start_line + 5)
      if preview_end > start_line then
        ⟨joinLines ((lines.drop (start_line - 1)).take (preview_end - (start_line - 1))) ++
          "\n    # ...", start_line, preview_end⟩
      else ⟨class_line, start_line, start_line⟩

/-- `chunker.chunk_python` after parsing: walk the tree, emit one chunk
per function/method (with a synthetic `class C:` context header for
methods) and one signature-plus-docstring chunk per class; fall back to
line-based chunking when no chunks were produced. -/
def chunk_python (tree : PyAst) (content : String) : List Chunk :=
  let lines := splitlines content
  let chunks := (ast_walk tree).flatMap (fun node =>
    match node with
    | .functionDef _ _ lineno endLineno _ => [functionChunk tree lines node lineno endLineno]
    | .classDef _ lineno _ body => [classChunk lines lineno body]
    | _ => [])
  if chunks.isEmpty then chunk_lines content else chunks

/-- `chunker.chunk_file`: dispatch on the file suffix; `ast.parse` is the
external parser parameter, and a parse failure (`SyntaxError`) falls back
to line-based chunking. -/
def chunk_file (parse : String → Except Unit PyAst) (file_path : String)
    (content : String) : List Chunk :=
  if pathSuffix file_path = ".py" then
    match parse content with
    | .ok tree => chunk_python tree content
    | .error _ => chunk_lines content
  else if pathSuffix file_path = ".md" then chunk_markdown content
  else chunk_lines content

/-! ## BM25 lexical index (`src/scot/bm25.py`) -/

/-- One pass of `re.sub(r'([a-z])([A-Z])', r'\1 \2', text)`: a blank is
inserted between a lowercase letter directly followed by an uppercase
letter; scanning resumes after each match, as `re.sub` does. -/
def camelSplit : List Char → List Char
  | a :: b :: rest =>
      if a.isLower && b.isUpper then a :: ' ' :: b :: camelSplit rest
      else a :: camelSplit (b :: rest)
  | l => l

/-- ASCII alphanumeric test (`[a-zA-Z0-9]`). -/
def isAlnum (c : Char) : Bool := c.isAlpha || c.isDigit

/-- Maximal alphanumeric runs of a character list
(`re.findall(r'[a-zA-Z0-9]+', ·)`): an alphanumeric character either
opens a new run or extends the run started by the following
alphanumeric character. -/
def alnumRuns : List Char → List (List Char)
  | [] => []
  | c :: rest =>
    let rs := alnumRuns rest
    if isAlnum c then
      match rest with
      | [] => [[c]]
      | c2 :: _ => if isAlnum c2 then (c :: rs.headD []) :: rs.tail else [c] :: rs
    else rs

/-- `bm25.tokenize`: split camelCase and snake_case, lowercase, extract
alphanumeric runs, drop tokens of length ≤ 1. -/
def tokenize (text : String) : List String :=
  let split := camelSplit text.toList
  let unders := split.map (fun c => if c = '_' then ' ' else c)
  let toks := alnumRuns (unders.map Char.toLower)
  (toks.map (fun r => String.mk r)).filter (fun t => t.length > 1)

/-- `bm25.BM25Index` after `index(documents)`: dictionaries are modelled
as total functions that are 0 outside their key set, so `term in
doc_freqs` is `doc_freqs term ≠ 0`. -/
structure BM25Index where
  k1 : ℝ
  b : ℝ
  doc_freqs : String → ℕ
  doc_lens : List ℕ
  avg_doc_len : ℝ
  num_docs : ℕ
  doc_term_freqs : List (String → ℕ)

/-- `BM25Index()` (default parameters k1 = 1.5, b = 0.75) followed by
`index(documents)`. -/
noncomputable def bm25IndexOf (documents : List String) : BM25Index :=
  let tokenLists := documents.map tokenize
  { k1 := 1.5
    b := 0.75
    doc_freqs := fun t => (tokenLists.filter (fun ts => t ∈ ts)).length
    doc_lens := tokenLists.map List.length
    avg_doc_len := (((tokenLists.map List.length).sum : ℕ) : ℝ) / ((max documents.length 1 : ℕ) : ℝ)
    num_docs := documents.length
    doc_term_freqs := tokenLists.map (fun ts => fun t => ts.count t) }

/-- `BM25Index._score_doc`: accumulate `idf · tf_norm` over the query
tokens, skipping terms absent from the corpus or from the document. -/
noncomputable def score_doc (idx : BM25Index) (query_tokens : List String) (doc_idx : ℕ) : ℝ :=
  let doc_len := idx.doc_lens.getD doc_idx 0
  let term_freqs := idx.doc_term_freqs.getD doc_idx (fun _ => 0)
  query_tokens.foldl (fun score term =>
    if idx.doc_freqs term = 0 then score
    else
      let tf := term_freqs term
      if tf = 0 then score
      else
        let df := idx.doc_freqs term
        let idf := Real.log (((idx.num_docs : ℝ) - (df : ℝ) + 0.5) / ((df : ℝ) + 0.5) + 1)
        let tf_norm := ((tf : ℝ) * (idx.k1 + 1)) /
          ((tf : ℝ) + idx.k1 * (1 - idx.b + idx.b * (doc_len : ℝ) / idx.avg_doc_len))
        score + idf * tf_norm) 0

/-- Key order used by Python's stable `scores.sort(key=lambda x: x[1],
reverse=True)`: descending by score. -/
def scoreGE {α : Type} [LinearOrder α] (a b : ℕ × α) : Prop := b.2 ≤ a.2

instance {α : Type} [LinearOrder α] : DecidableRel (scoreGE (α := α)) :=
  fun a b => inferInstanceAs (Decidable (b.2 ≤ a.2))

/-- Python's stable sort by descending score: insertion sort with the
non-strict descending key order is stable, so equal scores keep their
original relative order. -/
def sortByScoreDesc {α : Type} [LinearOrder α] (l : List (ℕ × α)) : List (ℕ × α) :=
  List.insertionSort scoreGE l

/-- `BM25Index.search`: score every document, stable-sort descending by
score, return the first `top_k` `(doc_index, score)` pairs. -/
noncomputable def BM25Index.search (idx : BM25Index) (query : String) (top_k : ℕ) :
    List (ℕ × ℝ) :=
  let query_tokens := tokenize query
  let scores := (List.range idx.num_docs).map (fun i => (i, score_doc idx query_tokens i))
  (sortByScoreDesc scores).take top_k

/-- Update of `fused_scores[doc_idx] += v` on an insertion-ordered
dictionary modelled as an association list: a missing key is appended
with value `v` (after `fused_scores[doc_idx] = 0.0`). -/
def bump {α : Type} [Add α] (d : ℕ) (v : α) : List (ℕ × α) → List (ℕ × α)
  | [] => [(d, v)]
  | (x, s) :: rest => if x = d then (x, s + v) :: rest else (x, s) :: bump d v rest

/-- `bm25.reciprocal_rank_fusion`, generic over the (exact) score field:
for each ranking, the document at 0-based position `rank` receives
`1 / (k + rank + 1)`; the fused dictionary is then stable-sorted by
descending fused score. -/
def reciprocal_rank_fusion {α : Type} [LinearOrderedField α]
    (rankings : List (List (ℕ × α))) (k : ℕ) : List (ℕ × α) :=
  let fused := rankings.foldl (fun acc ranking =>
    ranking.enum.foldl (fun acc2 p => bump p.2.1 (1 / ((k : α) + (p.1 : α) + 1)) acc2) acc) []
  sortByScoreDesc fused

/-! ## Index store (`src/scot/db.py`)

SQLite tables are modelled as lists in rowid (insertion) order; primary
keys come from monotonic counters; the embedding payload is an opaque
type parameter `E`.  Modification times are exact rationals. -/

/-- A row of the `chunks` table. -/
structure StoredChunk (E : Type) where
  id : ℕ
  repo_id : ℕ
  file_path : String
  file_mtime : ℚ
  start_line : ℕ
  end_line : ℕ
  chunk_text : String
  embedding : E
deriving DecidableEq, Repr

/-- The database: `repos` and `chunks` tables plus their id counters. -/
structure DB (E : Type) where
  repos : List (ℕ × String)
  next_repo_id : ℕ
  chunks : List (StoredChunk E)
  next_chunk_id : ℕ
deriving DecidableEq, Repr

/-- `db.get_or_create_repo`: return the id of the row with this absolute
path, inserting a fresh row when absent. -/
def get_or_create_repo {E : Type} (db : DB E) (repo_path : String) : DB E × ℕ :=
  match db.repos.find? (fun r => r.2 == repo_path) with
  | some r => (db, r.1)
  | none =>
      ({ db with
          repos := db.repos ++ [(db.next_repo_id, repo_path)]
          next_repo_id := db.next_repo_id + 1 }, db.next_repo_id)

/-- `db.get_file_mtime`: `file_mtime` of the first stored chunk row for
this repo and file (`LIMIT 1` in rowid order), `none` if never indexed. -/
def get_file_mtime {E : Type} (db : DB E) (rid : ℕ) (file_path : String) : Option ℚ :=
  (db.chunks.find? (fun c => c.repo_id == rid && c.file_path == file_path)).map
    (fun c => c.file_mtime)

/-- `db.delete_file_chunks`: delete all chunks of a file. -/
def delete_file_chunks {E : Type} (db : DB E) (rid : ℕ) (file_path : String) : DB E :=
  { db with chunks := db.chunks.filter (fun c => !(c.repo_id == rid && c.file_path == file_path)) }

/-- `db.insert_chunk`: append a chunk row with a fresh monotonic id. -/
def insert_chunk {E : Type} (db : DB E) (rid : ℕ) (file_path : String) (file_mtime : ℚ)
    (start_line end_line : ℕ) (chunk_text : String) (embedding : E) : DB E :=
  { db with
      chunks := db.chunks ++
        [⟨db.next_chunk_id, rid, file_path, file_mtime, start_line, end_line, chunk_text,
          embedding⟩]
      next_chunk_id := db.next_chunk_id + 1 }

/-- `db.get_repo_chunks`: all chunk rows of a repository, in rowid
order. -/
def get_repo_chunks {E : Type} (db : DB E) (rid : ℕ) : List (StoredChunk E) :=
  db.chunks.filter (fun c => c.repo_id == rid)

/-- `db.get_repo_files`: the distinct stored file paths of a repository
(`SELECT DISTINCT`; used only as a set by the indexer). -/
def get_repo_files {E : Type} (db : DB E) (rid : ℕ) : List String :=
  ((get_repo_chunks db rid).map (fun c => c.file_path)).dedup

/-! ## Incremental indexer (`src/scot/indexer.py`)

The external collaborators are parameters: the git file lister is the
`tracked` list of a filesystem snapshot, the embedding provider is a
pure function `embed` applied pointwise by the batched
`embed_documents`, and the chunker is passed in (`chunk_file` in the
source). -/

/-- Snapshot of the working tree: the git-tracked relative paths, and
per-path modification time (`none` when the file does not exist) and
content (`none` when reading raises). -/
structure FS where
  tracked : List String
  mtime : String → Option ℚ
  content : String → Option String

/-- Reconciliation statistics returned by `index_repo`. -/
structure Stats where
  files_scanned : ℕ
  files_updated : ℕ
  chunks_added : ℕ
  files_removed : ℕ
deriving DecidableEq, Repr

/-- The skip test of the indexer loop: `not force and cached_mtime is not
None and cached_mtime >= current_mtime`. -/
def unchangedSince {E : Type} (db : DB E) (rid : ℕ) (f : String) (current : ℚ) : Bool :=
  match get_file_mtime db rid f with
  | some cached => current ≤ cached
  | none => false

/-- The per-file collection loop of `index_repo`: skip missing files,
skip unchanged files (unless forced), skip unreadable files, skip files
whose chunking is empty; otherwise queue `(rel_path, current_mtime,
chunk)` triples for every chunk of the file. -/
def collectFiles {E : Type} (db : DB E) (rid : ℕ) (fs : FS)
    (chunker : String → String → List Chunk) (force : Bool) :
    List String → List (String × ℚ × Chunk)
  | [] => []
  | f :: rest =>
      let here :=
        match fs.mtime f with
        | none => []
        | some current =>
            if !force && unchangedSince db rid f current then []
            else
              match fs.content f with
              | none => []
              | some content => (chunker f content).map (fun ch => (f, current, ch))
      here ++ collectFiles db rid fs chunker force rest

/-- The store phase of `index_repo`: walk the queued `(file, mtime,
chunk)` triples paired with their embeddings, delete a file's previous
chunks at its first triple, insert every chunk, and count updated files
and added chunks. -/
def storePhase {E : Type} (rid : ℕ) :
    DB E → List String → List ((String × ℚ × Chunk) × E) → DB E × ℕ × ℕ
  | db, _, [] => (db, 0, 0)
  | db, processed, ((f, mt, ch), e) :: rest =>
      if f ∈ processed then
        let db1 := insert_chunk db rid f mt ch.start_line ch.end_line ch.text e
        let (dbf, u, a) := storePhase rid db1 processed rest
        (dbf, u, a + 1)
      else
        let db1 := insert_chunk (delete_file_chunks db rid f) rid f mt
          ch.start_line ch.end_line ch.text e
        let (dbf, u, a) := storePhase rid db1 (f :: processed) rest
        (dbf, u + 1, a + 1)

/-- `indexer.index_repo`.  Returns the updated database, the statistics,
and the batch of texts passed to the single `embed_documents` call
(empty when the provider is not invoked at all). -/
def index_repo {E : Type} (db : DB E) (fs : FS) (repo_path : String)
    (embed : String → E) (chunker : String → String → List Chunk) (force : Bool) :
    DB E × Stats × List String :=
  let pr := get_or_create_repo db repo_path
  let db1 := pr.1
  let rid := pr.2
  let indexed_files := get_repo_files db1 rid
  let removed := indexed_files.filter (fun f => f ∉ fs.tracked)
  let db2 := removed.foldl (fun d f => delete_file_chunks d rid f) db1
  let files_to_embed := collectFiles db2 rid fs chunker force fs.tracked
  if files_to_embed.isEmpty then
    (db2, ⟨fs.tracked.length, 0, 0, removed.length⟩, [])
  else
    let batch := files_to_embed.map (fun t => t.2.2.text)
    let withEmb := files_to_embed.map (fun t => (t, embed t.2.2.text))
    let (dbf, updated, added) := storePhase rid db2 [] withEmb
    (dbf, ⟨fs.tracked.length, updated, added, removed.length⟩, batch)

/-! ## Cosine similarity (`src/scot/embedder.py`) -/

/-- Dot product (`np.dot`) over coordinate lists. -/
noncomputable def dotList (a b : List ℝ) : ℝ := ((a.zip b).map (fun p => p.1 * p.2)).sum

/-- Euclidean norm (`np.linalg.norm`). -/
noncomputable def l2norm (v : List ℝ) : ℝ := Real.sqrt ((v.map (fun x => x ^ 2)).sum)

/-- `embedder.cosine_similarity`: the unguarded two-vector version (not
called by `search`). -/
noncomputable def cosine_similarity (a b : List ℝ) : ℝ :=
  dotList a b / (l2norm a * l2norm b)

/-- `embedder.cosine_similarity_matrix`: the query is divided by
`norm + eps` only when its norm exceeds `eps = 1e-10` (otherwise used
unnormalized); each document row is divided by its norm when that norm
exceeds `eps` and by 1 otherwise; the result is the per-row dot product
with the (possibly normalized) query. -/
noncomputable def cosine_similarity_matrix (query : List ℝ) (documents : List (List ℝ)) :
    List ℝ :=
  let eps : ℝ := 1e-10
  let query_norm_val := l2norm query
  let query_norm :=
    if query_norm_val > eps then query.map (fun x => x / (query_norm_val + eps)) else query
  let doc_norms := documents.map (fun d =>
    let nv := l2norm d
    d.map (fun x => x / (if nv > eps then nv else 1)))
  doc_norms.map (fun d => dotList d query_norm)

/-! ## Query cache and search (`src/scot/search.py`)

The BM25 cache is the daemon's `bm25_cache` dict, modelled as an
insertion-ordered association list from the repository key. -/

/-- Dictionary read: first (unique) entry with this key. -/
def cacheLookup {β : Type} (cache : List (String × β)) (key : String) : Option β :=
  (cache.find? (fun e => e.1 == key)).map (fun e => e.2)

/-- Dictionary assignment: replace the value in place when the key is
present, append otherwise. -/
def cacheInsert {β : Type} (cache : List (String × β)) (key : String) (v : β) :
    List (String × β) :=
  if (cache.find? (fun e => e.1 == key)).isSome then
    cache.map (fun e => if e.1 == key then (e.1, v) else e)
  else cache ++ [(key, v)]

/-- Dictionary deletion (`del cache[key]`, guarded by `key in cache`). -/
def cacheErase {β : Type} (cache : List (String × β)) (key : String) : List (String × β) :=
  cache.filter (fun e => e.1 != key)

/-- The reconciliation prefix of `search` (search.py lines 37-42): run
`index_repo`, and evict the repository's cache entry exactly when the
statistics report `files_updated > 0`. -/
def reconcileAndEvict {E β : Type} (db : DB E) (fs : FS) (repo_root : String)
    (embed : String → E) (chunker : String → String → List Chunk)
    (bm25_cache : List (String × β)) : DB E × Stats × List (String × β) :=
  let ir := index_repo db fs repo_root embed chunker false
  let cache2 :=
    if ir.2.1.files_updated > 0 then cacheErase bm25_cache repo_root else bm25_cache
  (ir.1, ir.2.1, cache2)

/-- The lexical caching step of `search` (search.py lines 80-101),
generic over the index type: reuse the cached index only when no file
pattern is applied and the stored chunk-id tuple equals the current
unfiltered one; otherwise build a fresh index over the (possibly
filtered) chunk texts and store it only when no file pattern is applied.
Returns the index to use, whether the cache was hit, and the updated
cache. -/
def lexicalStep {E I : Type} (buildIndex : List String → I)
    (bm25_cache : List (String × I × List ℕ)) (cache_key : String) (file_pattern : String)
    (all_chunks chunks : List (StoredChunk E)) : I × Bool × List (String × I × List ℕ) :=
  let current_chunk_ids := all_chunks.map (fun c => c.id)
  let cachedHit : Option I :=
    if file_pattern = "" then
      match cacheLookup bm25_cache cache_key with
      | some e => if e.2 = current_chunk_ids then some e.1 else none
      | none => none
    else none
  match cachedHit with
  | some bm25 => (bm25, true, bm25_cache)
  | none =>
      let bm25 := buildIndex (chunks.map (fun c => c.chunk_text))
      let cache2 :=
        if file_pattern = "" then cacheInsert bm25_cache cache_key (bm25, current_chunk_ids)
        else bm25_cache
      (bm25, false, cache2)

/-- A single search result (`search.SearchResult`). -/
structure SearchResult where
  file_path : String
  start_line : ℕ
  end_line : ℕ
  score : ℝ
  chunk_text : String

/-- The dict comprehension `scores = {idx: score for idx, score in l}`
read at `idx` (later pairs overwrite earlier ones; a missing index,
impossible in the pipeline, reads as 0). -/
noncomputable def scoresDict (l : List (ℕ × ℝ)) (i : ℕ) : ℝ :=
  (((l.reverse.find? (fun p => p.1 == i)).map (fun p => p.2))).getD 0

/-- An out-of-range chunk row (unreachable in the pipeline). -/
def emptyRow : StoredChunk (List ℝ) := ⟨0, 0, "", 0, 0, 0, "", []⟩

/-- `search.search`: reconcile and possibly evict the cache, load the
repository's chunks, apply the optional pattern filter, compute the
semantic and/or lexical rankings (the semantic ranking models
`np.argsort(similarities)[::-1][:fetch_k]` as a stable descending sort
of the `(index, similarity)` pairs; NumPy's default sort leaves tie
order unspecified), fuse with RRF in hybrid mode, and map the top `top_k`
indices back to chunk rows.  Returns the results, the updated database
and the updated cache. -/
noncomputable def search (db : DB (List ℝ)) (fs : FS) (parse : String → Except Unit PyAst)
    (embed_query : String → List ℝ) (embed_doc : String → List ℝ)
    (fnmatch : String → String → Bool) (repo_root : String) (query : String)
    (top_k : ℕ) (file_pattern : String) (mode : String)
    (bm25_cache : List (String × BM25Index × List ℕ)) :
    List SearchResult × DB (List ℝ) × List (String × BM25Index × List ℕ) :=
  let re := reconcileAndEvict db fs repo_root embed_doc (chunk_file parse) bm25_cache
  let db1 := re.1
  let cache1 := re.2.2
  let pr := get_or_create_repo db1 repo_root
  let db2 := pr.1
  let rid := pr.2
  let chunksAll := get_repo_chunks db2 rid
  if chunksAll.isEmpty then ([], db2, cache1)
  else
    let chunks :=
      if file_pattern ≠ "" then chunksAll.filter (fun c => fnmatch file_pattern c.file_path)
      else chunksAll
    if chunks.isEmpty then ([], db2, cache1)
    else
      let fetch_k := min (top_k * 3) chunks.length
      let semRankings : List (List (ℕ × ℝ)) :=
        if mode = "hybrid" ∨ mode = "semantic" then
          let sims := cosine_similarity_matrix (embed_query query)
            (chunks.map (fun c => c.embedding))
          [(sortByScoreDesc sims.enum).take fetch_k]
        else []
      let lexOut : Option (List (ℕ × ℝ) × List (String × BM25Index × List ℕ)) :=
        if mode = "hybrid" ∨ mode = "lexical" then
          let ls := lexicalStep bm25IndexOf cache1 repo_root file_pattern chunksAll chunks
          some (ls.1.search query fetch_k, ls.2.2)
        else none
      let rankings := semRankings ++ (match lexOut with | some l => [l.1] | none => [])
      let cache2 := match lexOut with | some l => l.2 | none => cache1
      let chosen : List (ℕ × ℝ) :=
        if mode = "hybrid" then reciprocal_rank_fusion rankings 60
        else rankings.headD []
      let top_indices := (chosen.take top_k).map (fun p => p.1)
      let results := top_indices.map (fun i =>
        let c := chunks.getD i emptyRow
        SearchResult.mk c.file_path c.start_line c.end_line (scoresDict chosen i) c.chunk_text)
      (results, db2, cache2)

/-! ## A concrete end-to-end scenario: the `Calculator` file -/

/-- Source of a Python file defining `class Calculator` with methods `add`
and `subtract`. -/
def calcContent : String := "class Calculator:\n    def add(self, a, b):\n        return a + b\n\n    def subtract(self, a, b):\n        return a - b"

/-- The AST `ast.parse` produces for `calcContent` (line numbers as CPython
reports them). -/
def calcTree : PyAst :=
  .module [.classDef "Calculator" 1 (some 6)
    [.functionDef false "add" 2 (some 3) [.stmt 3 (some 3)],
     .functionDef false "subtract" 5 (some 6) [.stmt 6 (some 6)]]]

/-- Text of the class-level chunk the chunker emits for `calcContent`
(no docstring, so signature plus body preview). -/
def calcClassText : String :=
  "class Calculator:\n    def add(self, a, b):\n        return a + b\n\n    # ..."

/-- Text of the `add` method chunk: synthetic class header plus re-indented body. -/
def calcAddText : String :=
  "class Calculator:\n        def add(self, a, b):\n            return a + b"

/-- Text of the `subtract` method chunk: synthetic class header plus re-indented body. -/
def calcSubText : String :=
  "class Calculator:\n        def subtract(self, a, b):\n            return a - b"

/-- The database state after indexing `calc.py` into an empty database. -/
def calcDb : DB (List ℝ) :=
  ⟨[(1, "repo")], 2,
    [⟨1, 1, "calc.py", 1, 1, 4, calcClassText, [(1 : ℝ)]⟩,
     ⟨2, 1, "calc.py", 1, 2, 3, calcAddText, [(1 : ℝ)]⟩,
     ⟨3, 1, "calc.py", 1, 5, 6, calcSubText, [(1 : ℝ)]⟩], 4⟩

/-- A file system tracking only `calc.py`, with mtime 1 and content `calcContent`. -/
def calcFS : FS := ⟨["calc.py"], fun _ => some 1, fun _ => some calcContent⟩

/-- The chunk texts stored for `calc.py`, i.e. the BM25 corpus. -/
def calcTexts : List String := [calcClassText, calcAddText, calcSubText]

/-- The result list `search` builds from a chosen ranking over the three
`calc.py` rows (definitionally equal to the result branch of `search` in
this scenario). -/
noncomputable def calcResults (chosen : List (ℕ × ℝ)) : List SearchResult :=
  ((chosen.take 5).map (fun p => p.1)).map (fun i =>
    SearchResult.mk ((calcDb.chunks.filter (fun c => c.repo_id == 1)).getD i emptyRow).file_path
      ((calcDb.chunks.filter (fun c => c.repo_id == 1)).getD i emptyRow).start_line
      ((calcDb.chunks.filter (fun c => c.repo_id == 1)).getD i emptyRow).end_line
      (scoresDict chosen i)
      ((calcDb.chunks.filter (fun c => c.repo_id == 1)).getD i emptyRow).chunk_text)

/-! ## Closed form of the sliding-window loop -/

/-- Number of windows the loop emits over `m` remaining lines
(`⌈m / stride⌉` with stride `W − O = 40`). -/
def numWindows (m : ℕ) : ℕ := (m + 39) / 40

/-- The window chunk starting at 0-based line `s`. -/
def windowChunk (lines : List String) (s : ℕ) : Chunk :=
  ⟨joinLines ((lines.drop s).take (min (s + CHUNK_SIZE_LINES) lines.length - s)),
    s + 1, min (s + CHUNK_SIZE_LINES) lines.length⟩

theorem slidingChunks_closed (lines : List String) (start : ℕ) :
    slidingChunks lines start =
      (List.range (numWindows (lines.length - start))).map
        (fun i => windowChunk lines (start + 40 * i)) := by
  generalize hm : lines.length - start = m
  induction m using Nat.strong_induction_on generalizing start with
  | _ m IH =>
    by_cases h : start < lines.length
    · have hrec := IH (lines.length - (start + 40)) (by omega) (start + 40) rfl
      rw [slidingChunks, dif_pos h]
      have hk : numWindows m = numWindows (lines.length - (start + 40)) + 1 := by
        simp only [numWindows]; omega
      have harg : (fun i => windowChunk lines (start + 40 * (i + 1)))
          = fun i => windowChunk lines (start + 40 + 40 * i) := by
        funext i; congr 1; ring
      show windowChunk lines start :: slidingChunks lines (start + (50 - 10)) = _
      rw [hk, List.range_succ_eq_map, List.map_cons, List.map_map]
      refine congrArg₂ _ (by simp [windowChunk]) ?_
      rw [show start + (50 - 10) = start + 40 from rfl, hrec]
      simp only [Function.comp_def]
      rw [harg]
    · rw [slidingChunks, dif_neg h]
      have : numWindows m = 0 := by simp only [numWindows]; omega
      rw [this]
      rfl

theorem chunk_lines_of_long (content : String)
    (hn : CHUNK_SIZE_LINES < (splitlines content).length) :
    chunk_lines content =
      (List.range (numWindows (splitlines content).length)).map
        (fun i => windowChunk (splitlines content) (40 * i)) := by
  have hne : ¬ (splitlines content).isEmpty = true := by
    simp only [List.isEmpty_eq_true]
    intro h
    rw [h] at hn
    simp [CHUNK_SIZE_LINES] at hn
  rw [chunk_lines]
  rw [if_neg hne, if_neg (by omega)]
  rw [slidingChunks_closed]
  simp

/-- C4: line-based fallback chunking with W = 50 and O = 10.  Empty
content yields no chunks; nonempty content of at most W lines yields
exactly one chunk spanning lines 1 through the last line; longer content
yields chunks whose ranges stay inside the file, jointly cover every
line with no gaps, and adjacent chunks overlap in exactly O lines except
possibly at the pair that ends in the last chunk. -/
theorem chunk_lines_spec (content : String) :
    (content = "" → chunk_lines content = []) ∧
    (splitlines content ≠ [] → (splitlines content).length ≤ CHUNK_SIZE_LINES →
      chunk_lines content = [⟨content, 1, (splitlines content).length⟩]) ∧
    (CHUNK_SIZE_LINES < (splitlines content).length →
      (∀ c ∈ chunk_lines content,
        1 ≤ c.start_line ∧ c.start_line ≤ c.end_line ∧
          c.end_line ≤ (splitlines content).length) ∧
      (∀ ln, 1 ≤ ln → ln ≤ (splitlines content).length →
        ∃ c ∈ chunk_lines content, c.start_line ≤ ln ∧ ln ≤ c.end_line) ∧
      (∀ i, i + 1 < (chunk_lines content).length →
        ((chunk_lines content).getD (i + 1) ⟨"", 0, 0⟩).start_line ≤
          ((chunk_lines content).getD i ⟨"", 0, 0⟩).end_line + 1) ∧
      (∀ i, i + 2 < (chunk_lines content).length →
        ((chunk_lines content).getD i ⟨"", 0, 0⟩).end_line + 1 -
          ((chunk_lines content).getD (i + 1) ⟨"", 0, 0⟩).start_line = CHUNK_OVERLAP_LINES)) := by
  refine ⟨?_, ?_, ?_⟩
  · intro h; subst h; rfl
  · intro h1 h2
    rw [chunk_lines]
    simp only [List.isEmpty_eq_true]
    rw [if_neg h1, if_pos h2]
  · intro hn
    set lines := splitlines content with hlines
    set n := lines.length with hdefn
    have hcf := chunk_lines_of_long content hn
    rw [← hlines, ← hdefn] at hcf
    have hlen : (chunk_lines content).length = numWindows n := by
      rw [hcf]; simp
    have hget : ∀ i, i < numWindows n →
        (chunk_lines content).getD i ⟨"", 0, 0⟩ = windowChunk lines (40 * i) := by
      intro i hi
      have hi' : i < (chunk_lines content).length := by omega
      rw [List.getD_eq_getElem _ _ hi']
      simp only [hcf]
      rw [List.getElem_map, List.getElem_range]
    have hK : numWindows n = (n + 39) / 40 := rfl
    have hW : CHUNK_SIZE_LINES = 50 := rfl
    refine ⟨?_, ?_, ?_, ?_⟩
    · intro c hc
      rw [hcf] at hc
      obtain ⟨i, hi, rfl⟩ := List.mem_map.mp hc
      rw [List.mem_range] at hi
      simp only [windowChunk, ← hdefn]
      refine ⟨by omega, ?_, by omega⟩
      simp only [CHUNK_SIZE_LINES]
      omega
    · intro ln h1 h2
      refine ⟨(chunk_lines content).getD ((ln - 1) / 40) ⟨"", 0, 0⟩, ?_, ?_⟩
      · have hi : (ln - 1) / 40 < numWindows n := by rw [hK]; omega
        have hi' : (ln - 1) / 40 < (chunk_lines content).length := by omega
        rw [List.getD_eq_getElem _ _ hi']
        exact List.getElem_mem hi'
      · rw [hget _ (by rw [hK]; omega)]
        simp only [windowChunk, ← hdefn, CHUNK_SIZE_LINES]
        omega
    · intro i hi
      rw [hlen] at hi
      rw [hget i (by omega), hget (i + 1) (by omega)]
      simp only [windowChunk, ← hdefn, CHUNK_SIZE_LINES]
      rw [hK] at hi
      omega
    · intro i hi
      rw [hlen] at hi
      rw [hget i (by omega), hget (i + 1) (by omega)]
      simp only [windowChunk, ← hdefn, CHUNK_SIZE_LINES, CHUNK_OVERLAP_LINES]
      rw [hK] at hi
      omega

/-- A concrete 100-line content used to exercise the sliding-window
case. -/
def longContent : String := String.intercalate "\n" (List.replicate 100 "a")

set_option maxRecDepth 8000 in
/-- Witness for C4: on a concrete 100-line content the long-content case
applies and every adjacent pair not ending in the last chunk overlaps in
exactly 10 lines. -/
theorem chunk_lines_spec_witness :
    CHUNK_SIZE_LINES < (splitlines longContent).length ∧
    (∀ i, i + 2 < (chunk_lines longContent).length →
      ((chunk_lines longContent).getD i ⟨"", 0, 0⟩).end_line + 1 -
        ((chunk_lines longContent).getD (i + 1) ⟨"", 0, 0⟩).start_line = CHUNK_OVERLAP_LINES) :=
  ⟨by decide, ((chunk_lines_spec longContent).2.2 (by decide)).2.2.2⟩

/-! ## C1: Markdown chunking -/

/-- The 0-based indices of the header lines of a line list. -/
def headerIdxs (lines : List String) : List ℕ :=
  (List.range lines.length).filter (fun i => isHeaderLine (lines.getD i ""))

theorem headerIdxs_sorted (lines : List String) : (headerIdxs lines).Pairwise (· < ·) :=
  List.Pairwise.filter _ (List.pairwise_lt_range _)

theorem mem_headerIdxs (lines : List String) (j : ℕ) :
    j ∈ headerIdxs lines ↔ j < lines.length ∧ isHeaderLine (lines.getD j "") := by
  simp [headerIdxs, List.mem_filter]

/-- Head membership for `head? = some`. -/
theorem mem_of_head?_eq {α : Type} {l : List α} {x : α} (h : l.head? = some x) : x ∈ l := by
  cases l with
  | nil => simp at h
  | cons a t =>
    simp only [List.head?_cons, Option.some.injEq] at h
    exact h ▸ List.mem_cons_self a t

/-- Least element of a `(· < ·)`-pairwise list is its head. -/
theorem head?_le_of_pairwise_lt {l : List ℕ} {x y : ℕ} (hp : l.Pairwise (· < ·))
    (hh : l.head? = some x) (hy : y ∈ l) : x ≤ y := by
  cases l with
  | nil => simp at hh
  | cons a t =>
    simp only [List.head?_cons, Option.some.injEq] at hh
    subst hh
    rcases List.mem_cons.mp hy with rfl | hy
    · exact le_rfl
    · exact le_of_lt (List.rel_of_pairwise_cons hp hy)

/-- C1: on a `.md` file, `chunk_file` performs the header-based Markdown
chunking: empty content yields no chunks, content without header lines
falls back to line-based chunking, and otherwise there is exactly one
chunk per header line, starting at that header, ending at the line
before the next header of equal-or-higher level (or at the file end),
with the chunk text being exactly that line range, and consecutive
chunks ordered by start line. -/
theorem chunk_file_markdown_spec (parse : String → Except Unit PyAst)
    (file_path content : String) (hmd : pathSuffix file_path = ".md") :
    chunk_file parse file_path content = chunk_markdown content ∧
    (content = "" → chunk_markdown content = []) ∧
    (headerIdxs (splitlines content) = [] → chunk_markdown content = chunk_lines content) ∧
    (headerIdxs (splitlines content) ≠ [] →
      (chunk_markdown content).length = (headerIdxs (splitlines content)).length ∧
      (∀ k, k < (headerIdxs (splitlines content)).length →
        ((chunk_markdown content).getD k ⟨"", 0, 0⟩).start_line =
            (headerIdxs (splitlines content)).getD k 0 + 1 ∧
        isHeaderLine ((splitlines content).getD ((headerIdxs (splitlines content)).getD k 0) "")
          = true ∧
        (let i := (headerIdxs (splitlines content)).getD k 0
         let ck := (chunk_markdown content).getD k ⟨"", 0, 0⟩
         ck.text = joinLines (((splitlines content).drop i).take (ck.end_line - i)) ∧
         i < ck.end_line ∧ ck.end_line ≤ (splitlines content).length ∧
         (∀ j, i < j → j < ck.end_line → isHeaderLine ((splitlines content).getD j "") →
            headerLevel ((splitlines content).getD i "") <
              headerLevel ((splitlines content).getD j "")) ∧
         (ck.end_line = (splitlines content).length ∨
           (ck.end_line < (splitlines content).length ∧
            isHeaderLine ((splitlines content).getD ck.end_line "") ∧
            headerLevel ((splitlines content).getD ck.end_line "") ≤
              headerLevel ((splitlines content).getD i "")))))) := by
  have hdispatch : chunk_file parse file_path content = chunk_markdown content := by
    rw [chunk_file, if_neg (by rw [hmd]; decide), if_pos hmd]
  refine ⟨hdispatch, ?_, ?_, ?_⟩
  · intro h; subst h; rfl
  · intro h
    rw [chunk_markdown]
    rw [show ((List.range (splitlines content).length).filter
      (fun i => isHeaderLine ((splitlines content).getD i ""))) = headerIdxs (splitlines content)
      from rfl, h]
    simp
  · intro hne
    set lines := splitlines content with hlines
    set hs := headerIdxs lines with hhs
    have hmk : chunk_markdown content = hs.map (fun i =>
        let lvl := headerLevel (lines.getD i "")
        let stop := ((hs.filter (fun j => i < j ∧ headerLevel (lines.getD j "") ≤ lvl)).head?).getD
          lines.length
        ⟨joinLines ((lines.drop i).take (stop - i)), i + 1, stop⟩) := by
      rw [chunk_markdown]
      rw [show ((List.range (splitlines content).length).filter
        (fun i => isHeaderLine ((splitlines content).getD i ""))) = hs from rfl]
      rw [if_neg (by simp [hne])]
    have hlen : (chunk_markdown content).length = hs.length := by rw [hmk]; simp
    refine ⟨hlen, ?_⟩
    intro k hk
    have hk' : k < (chunk_markdown content).length := by omega
    have hgetck : (chunk_markdown content).getD k ⟨"", 0, 0⟩ =
        (let i := hs.getD k 0
         let lvl := headerLevel (lines.getD i "")
         let stop := ((hs.filter (fun j => i < j ∧ headerLevel (lines.getD j "") ≤ lvl)).head?).getD
          lines.length
         (⟨joinLines ((lines.drop i).take (stop - i)), i + 1, stop⟩ : Chunk)) := by
      rw [List.getD_eq_getElem _ _ hk']
      simp only [hmk]
      rw [List.getElem_map]
      rw [List.getD_eq_getElem _ _ hk]
    set i := hs.getD k 0 with hi
    have himem : i ∈ hs := by
      rw [hi, List.getD_eq_getElem _ _ hk]
      exact List.getElem_mem hk
    have hihdr : isHeaderLine (lines.getD i "") = true ∧ i < lines.length := by
      have := (mem_headerIdxs lines i).mp (by rw [hhs] at himem; exact himem)
      exact ⟨this.2, this.1⟩
    set lvl := headerLevel (lines.getD i "") with hlvl
    set F := hs.filter (fun j => i < j ∧ headerLevel (lines.getD j "") ≤ lvl) with hF
    set stop := (F.head?).getD lines.length with hstop
    have hckval : (chunk_markdown content).getD k ⟨"", 0, 0⟩ =
        ⟨joinLines ((lines.drop i).take (stop - i)), i + 1, stop⟩ := hgetck
    have hmemF : ∀ j ∈ F, i < j ∧ headerLevel (lines.getD j "") ≤ lvl ∧ j ∈ hs := by
      intro j hj
      have := List.mem_filter.mp hj
      simp only [decide_eq_true_eq] at this
      exact ⟨this.2.1, this.2.2, this.1⟩
    have hFsorted : F.Pairwise (· < ·) := List.Pairwise.filter _ (by rw [hhs]; exact headerIdxs_sorted lines)
    have hstopcases : (F.head? = none ∧ stop = lines.length) ∨
        (F.head? = some stop) := by
      cases hfh : F.head? with
      | none => exact Or.inl ⟨rfl, by rw [hstop, hfh]; rfl⟩
      | some v => right; rw [hstop, hfh]; rfl
    have hminimal : ∀ j, i < j → j < stop → isHeaderLine (lines.getD j "") →
        j < lines.length → lvl < headerLevel (lines.getD j "") := by
      intro j hij hjstop hjhdr hjlt
      by_contra hcon
      push_neg at hcon
      have hjF : j ∈ F := by
        rw [hF]
        refine List.mem_filter.mpr ⟨?_, by simp only [decide_eq_true_eq]; exact ⟨hij, hcon⟩⟩
        rw [hhs]
        exact (mem_headerIdxs lines j).mpr ⟨hjlt, hjhdr⟩
      rcases hstopcases with ⟨hnone, _⟩ | hsome
      · rw [List.head?_eq_none_iff.mp hnone] at hjF
        simp at hjF
      · have := head?_le_of_pairwise_lt hFsorted hsome hjF
        omega
    refine ⟨by rw [hckval], hihdr.1, ?_⟩
    refine ⟨by rw [hckval], ?_, ?_, ?_, ?_⟩
    · rw [hckval]
      simp only
      rcases hstopcases with ⟨_, hlen'⟩ | hsome
      · omega
      · have hstopF : stop ∈ F := mem_of_head?_eq hsome
        exact (hmemF stop hstopF).1
    · rw [hckval]
      simp only
      rcases hstopcases with ⟨_, hlen'⟩ | hsome
      · omega
      · have hstopF : stop ∈ F := mem_of_head?_eq hsome
        have := (mem_headerIdxs lines stop).mp (by rw [← hhs] at *; exact (hmemF stop hstopF).2.2)
        omega
    · rw [hckval]
      simp only
      intro j hij hjstop hjhdr
      have hjlt : j < lines.length := by
        rcases hstopcases with ⟨_, hlen'⟩ | hsome
        · omega
        · have hstopF : stop ∈ F := mem_of_head?_eq hsome
          have := (mem_headerIdxs lines stop).mp (hmemF stop hstopF).2.2
          omega
      exact hminimal j hij hjstop hjhdr hjlt
    · rw [hckval]
      simp only
      rcases hstopcases with ⟨_, hlen'⟩ | hsome
      · exact Or.inl hlen'
      · have hstopF : stop ∈ F := mem_of_head?_eq hsome
        have hmem := (mem_headerIdxs lines stop).mp (hmemF stop hstopF).2.2
        exact Or.inr ⟨hmem.1, hmem.2, (hmemF stop hstopF).2.1⟩

/-- Witness for C1: a concrete two-header document is split at the
second equal-level header. -/
theorem chunk_file_markdown_spec_witness :
    pathSuffix "doc.md" = ".md" ∧
    chunk_file (fun _ => Except.error ()) "doc.md" "# A\nx\n# B\ny" =
      chunk_markdown "# A\nx\n# B\ny" ∧
    chunk_markdown "# A\nx\n# B\ny" =
      [⟨"# A\nx", 1, 2⟩, ⟨"# B\ny", 3, 4⟩] :=
  ⟨by decide,
   (chunk_file_markdown_spec (fun _ => Except.error ()) "doc.md" "# A\nx\n# B\ny" (by decide)).1,
   by decide⟩

/-! ## Stability of the descending score sort -/

/-- Strict ranking order: strictly higher score first, ties broken by
ascending document index. -/
def lexDesc {α : Type} [LinearOrder α] (a b : ℕ × α) : Prop :=
  b.2 < a.2 ∨ (a.2 = b.2 ∧ a.1 < b.1)

theorem pairwise_lexDesc_orderedInsert {α : Type} [LinearOrder α] (a : ℕ × α) :
    ∀ l : List (ℕ × α), l.Pairwise lexDesc → (∀ b ∈ l, a.1 < b.1) →
      (List.orderedInsert scoreGE a l).Pairwise lexDesc
  | [], _, _ => by simp [List.orderedInsert]
  | b :: t, hl, ha => by
    rw [List.orderedInsert]
    rcases List.pairwise_cons.mp hl with ⟨hbt, htp⟩
    split
    · rename_i hab
      refine List.pairwise_cons.mpr ⟨?_, hl⟩
      intro x hx
      rcases List.mem_cons.mp hx with rfl | hx
      · rcases lt_or_eq_of_le hab with hlt | heq
        · exact Or.inl hlt
        · exact Or.inr ⟨heq.symm, ha x (List.mem_cons_self _ _)⟩
      · rcases hbt x hx with hlt | ⟨heq, hidx⟩
        · exact Or.inl (lt_of_lt_of_le hlt hab)
        · rcases lt_or_eq_of_le hab with hlt' | heq'
          · exact Or.inl (heq ▸ hlt')
          · exact Or.inr ⟨heq'.symm.trans heq, ha x (List.mem_cons_of_mem _ hx)⟩
    · rename_i hab
      refine List.pairwise_cons.mpr ⟨?_, ?_⟩
      · intro x hx
        rcases (List.mem_orderedInsert scoreGE).mp hx with rfl | hx
        · exact Or.inl (lt_of_not_le hab)
        · exact hbt x hx
      · exact pairwise_lexDesc_orderedInsert a t htp
          (fun x hx => ha x (List.mem_cons_of_mem _ hx))

theorem sortByScoreDesc_pairwise {α : Type} [LinearOrder α] (l : List (ℕ × α))
    (hidx : l.Pairwise (fun a b => a.1 < b.1)) :
    (sortByScoreDesc l).Pairwise lexDesc := by
  induction l with
  | nil => simp [sortByScoreDesc, List.insertionSort]
  | cons a t IH =>
    rcases List.pairwise_cons.mp hidx with ⟨hat, htp⟩
    rw [sortByScoreDesc, List.insertionSort]
    refine pairwise_lexDesc_orderedInsert a _ (IH htp) ?_
    intro b hb
    exact hat b ((List.perm_insertionSort scoreGE t).mem_iff.mp hb)

theorem sortByScoreDesc_perm {α : Type} [LinearOrder α] (l : List (ℕ × α)) :
    List.Perm (sortByScoreDesc l) l := List.perm_insertionSort scoreGE l

/-! ## C3: BM25 scoring and ranking -/

/-- C3: over the index built from a corpus of `N` documents with k1 = 1.5
and b = 0.75, each document's score is the sum over query tokens with
positive term frequency of `idf · tf_norm` with
`idf = ln((N − df + 0.5)/(df + 0.5) + 1)` and
`tf_norm = tf·(k1+1)/(tf + k1·(1 − b + b·|d|/avgdl))`; the idf value is
never negative; a document containing no query token scores 0; and
`search` returns the first `top_k` entries of the stable descending sort
of all `(doc_index, score)` pairs, which is a permutation of those pairs
ordered by strictly descending score with ties broken by ascending
document index. -/
theorem bm25_search_spec (documents : List String) (query : String) (top_k : ℕ) :
    let idx : BM25Index := bm25IndexOf documents
    let qt := tokenize query
    let N := documents.length
    let df := fun t => ((documents.map tokenize).filter (fun ts => t ∈ ts)).length
    let tf := fun d t => ((documents.map tokenize).getD d []).count t
    let dlen := fun d => ((documents.map tokenize).getD d []).length
    let avgdl := ((((documents.map tokenize).map List.length).sum : ℕ) : ℝ) /
      ((max N 1 : ℕ) : ℝ)
    let idf := fun t => Real.log (((N : ℝ) - (df t : ℝ) + 0.5) / ((df t : ℝ) + 0.5) + 1)
    let tfnorm := fun d t => ((tf d t : ℝ) * (1.5 + 1)) /
      ((tf d t : ℝ) + 1.5 * (1 - 0.75 + 0.75 * (dlen d : ℝ) / avgdl))
    (∀ d, score_doc idx qt d =
      (qt.map (fun t => if 0 < tf d t then idf t * tfnorm d t else 0)).sum) ∧
    (∀ t, 0 ≤ idf t) ∧
    (∀ d, (∀ t ∈ qt, tf d t = 0) → score_doc idx qt d = 0) ∧
    BM25Index.search idx query top_k =
      (sortByScoreDesc ((List.range N).map (fun d => (d, score_doc idx qt d)))).take top_k ∧
    List.Perm (sortByScoreDesc ((List.range N).map (fun d => (d, score_doc idx qt d))))
      ((List.range N).map (fun d => (d, score_doc idx qt d))) ∧
    (sortByScoreDesc ((List.range N).map (fun d => (d, score_doc idx qt d)))).Pairwise
      lexDesc := by
  intro idx qt N df tf dlen avgdl idf tfnorm
  have htf : ∀ d, idx.doc_term_freqs.getD d (fun _ => 0) = fun t => tf d t := by
    intro d
    by_cases hd : d < N
    · have hd' : d < idx.doc_term_freqs.length := by
        simp [idx, bm25IndexOf]
        exact hd
      rw [List.getD_eq_getElem _ _ hd']
      show ((documents.map tokenize).map (fun ts => fun t => ts.count t))[d] = _
      rw [List.getElem_map]
      funext t
      simp only [tf]
      rw [List.getD_eq_getElem _ _ (by simpa using hd)]
    · have h1 : idx.doc_term_freqs.getD d (fun _ => 0) = fun _ => 0 := by
        apply List.getD_eq_default
        simp [idx, bm25IndexOf]
        omega
      have h2 : (documents.map tokenize).getD d [] = [] := by
        apply List.getD_eq_default
        simp
        omega
      rw [h1]
      funext t
      simp only [tf, h2, List.count_nil]
  have hdlen : ∀ d, idx.doc_lens.getD d 0 = dlen d := by
    intro d
    by_cases hd : d < N
    · have hd' : d < idx.doc_lens.length := by
        simp [idx, bm25IndexOf]
        exact hd
      rw [List.getD_eq_getElem _ _ hd']
      show ((documents.map tokenize).map List.length)[d] = _
      rw [List.getElem_map]
      simp only [dlen]
      rw [List.getD_eq_getElem _ _ (by simpa using hd)]
    · have h1 : idx.doc_lens.getD d 0 = 0 := by
        apply List.getD_eq_default
        simp [idx, bm25IndexOf]
        omega
      have h2 : (documents.map tokenize).getD d [] = [] := by
        apply List.getD_eq_default
        simp
        omega
      simp only [dlen, h1, h2, List.length_nil]
  have hdf : ∀ t, idx.doc_freqs t = df t := fun t => rfl
  have hdfpos : ∀ d t, 0 < tf d t → 0 < df t := by
    intro d t h
    have hmem : t ∈ (documents.map tokenize).getD d [] := List.count_pos_iff.mp h
    have hd : d < (documents.map tokenize).length := by
      by_contra hcon
      rw [List.getD_eq_default _ _ (by omega)] at hmem
      simp at hmem
    rw [List.getD_eq_getElem _ _ hd] at hmem
    have : (documents.map tokenize)[d] ∈ (documents.map tokenize).filter
        (fun ts => decide (t ∈ ts)) := by
      rw [List.mem_filter]
      exact ⟨List.getElem_mem hd, by simpa using hmem⟩
    have hne : (documents.map tokenize).filter (fun ts => decide (t ∈ ts)) ≠ [] := by
      intro hcon
      rw [hcon] at this
      simp at this
    simp only [df]
    have := List.length_pos.mpr hne
    simpa using this
  have hdflen : ∀ t, df t ≤ N := by
    intro t
    simp only [df]
    calc ((documents.map tokenize).filter (fun ts => t ∈ ts)).length
        ≤ (documents.map tokenize).length := List.length_filter_le _ _
      _ = N := by simp
  have hbody : ∀ d, score_doc idx qt d =
      (qt.map (fun t => if 0 < tf d t then idf t * tfnorm d t else 0)).sum := by
    intro d
    rw [score_doc]
    rw [htf d, hdlen d]
    have hgen : ∀ (l : List String) (a : ℝ),
        (l.foldl (fun score term =>
          if idx.doc_freqs term = 0 then score
          else
            if tf d term = 0 then score
            else score + Real.log (((idx.num_docs : ℝ) - (idx.doc_freqs term : ℝ) + 0.5) /
                ((idx.doc_freqs term : ℝ) + 0.5) + 1) *
              (((tf d term : ℝ)) * (idx.k1 + 1) /
                ((tf d term : ℝ) + idx.k1 * (1 - idx.b + idx.b * (dlen d : ℝ) /
                  idx.avg_doc_len))) ) a) =
        a + (l.map (fun t => if 0 < tf d t then idf t * tfnorm d t else 0)).sum := by
      intro l
      induction l with
      | nil => intro a; simp
      | cons t rest IH =>
        intro a
        rw [List.foldl_cons, IH, List.map_cons, List.sum_cons]
        have hstep : (if idx.doc_freqs t = 0 then a
            else if tf d t = 0 then a
            else a + Real.log (((idx.num_docs : ℝ) - (idx.doc_freqs t : ℝ) + 0.5) /
                ((idx.doc_freqs t : ℝ) + 0.5) + 1) *
              (((tf d t : ℝ)) * (idx.k1 + 1) /
                ((tf d t : ℝ) + idx.k1 * (1 - idx.b + idx.b * (dlen d : ℝ) /
                  idx.avg_doc_len)))) =
            a + (if 0 < tf d t then idf t * tfnorm d t else 0) := by
          by_cases h0 : tf d t = 0
          · have hrhs : (if 0 < tf d t then idf t * tfnorm d t else 0) = 0 :=
              if_neg (by omega)
            rw [hrhs]
            by_cases hdf0 : idx.doc_freqs t = 0
            · rw [if_pos hdf0]; ring
            · rw [if_neg hdf0, if_pos h0]; ring
          · have hdf0 : idx.doc_freqs t ≠ 0 := by
              have := hdfpos d t (by omega)
              rw [hdf t]; omega
            have hrhs : (if 0 < tf d t then idf t * tfnorm d t else 0) = idf t * tfnorm d t :=
              if_pos (by omega)
            rw [hrhs, if_neg hdf0, if_neg h0]
            rfl
        rw [hstep]
        ring
    rw [hgen qt 0]
    ring
  refine ⟨hbody, ?_, ?_, rfl, sortByScoreDesc_perm _, ?_⟩
  · intro t
    apply Real.log_nonneg
    have h1 : (0 : ℝ) ≤ ((N : ℝ) - (df t : ℝ) + 0.5) := by
      have := hdflen t
      have : (df t : ℝ) ≤ (N : ℝ) := by exact_mod_cast this
      linarith
    have h2 : (0 : ℝ) < ((df t : ℝ) + 0.5) := by positivity
    have := div_nonneg h1 (le_of_lt h2)
    linarith
  · intro d hzero
    rw [hbody d]
    have : ∀ t ∈ qt, (if 0 < tf d t then idf t * tfnorm d t else 0) = 0 := by
      intro t ht
      rw [if_neg (by have := hzero t ht; omega)]
    rw [List.map_eq_map_iff.mpr (by intro t ht; rw [this t ht])]
    simp
  · apply sortByScoreDesc_pairwise
    rw [List.pairwise_map]
    exact List.pairwise_lt_range N

/-- Witness for C3: in a two-document corpus a query sharing no token
with a document gives that document score 0. -/
theorem bm25_search_spec_witness :
    (∀ t ∈ tokenize "xyz", (((["hello world", "foo bar"]).map tokenize).getD 0 []).count t = 0) ∧
    score_doc (bm25IndexOf ["hello world", "foo bar"]) (tokenize "xyz") 0 = 0 :=
  ⟨by decide, (bm25_search_spec ["hello world", "foo bar"] "xyz" 5).2.2.1 0 (by decide)⟩

/-! ## C7: reciprocal rank fusion -/

/-- Read of the fused-score dictionary at document id `d`. -/
def lookupFused {α : Type} (l : List (ℕ × α)) (d : ℕ) : Option α :=
  (l.find? (fun p => p.1 == d)).map (fun p => p.2)

theorem lookupFused_nil {α : Type} (d : ℕ) : lookupFused ([] : List (ℕ × α)) d = none := rfl

theorem bump_keys {α : Type} [Add α] (d : ℕ) (v : α) :
    ∀ l : List (ℕ × α), (bump d v l).map Prod.fst =
      if d ∈ l.map Prod.fst then l.map Prod.fst else l.map Prod.fst ++ [d]
  | [] => by simp [bump]
  | (x, s) :: t => by
    rw [bump]
    by_cases hx : x = d
    · subst hx
      simp
    · rw [if_neg hx]
      have := bump_keys d v t
      by_cases hd : d ∈ t.map Prod.fst
      · simp only [List.map_cons, this, if_pos hd]
        rw [if_pos (by simp [hd])]
      · simp only [List.map_cons, this, if_neg hd]
        rw [if_neg (by simp [hd, Ne.symm hx, hx])]
        simp

theorem lookupFused_cons {α : Type} (x : ℕ) (s : α) (t : List (ℕ × α)) (d : ℕ) :
    lookupFused ((x, s) :: t) d = if x = d then some s else lookupFused t d := by
  by_cases hx : x = d
  · simp [lookupFused, List.find?_cons, hx]
  · simp [lookupFused, List.find?_cons, hx]

theorem lookupFused_bump_self {α : Type} [AddCommMonoid α] (d : ℕ) (v : α) :
    ∀ l : List (ℕ × α), lookupFused (bump d v l) d =
      some ((lookupFused l d).getD 0 + v)
  | [] => by simp [bump, lookupFused_cons, lookupFused]
  | (x, s) :: t => by
    rw [bump]
    by_cases hx : x = d
    · subst hx
      rw [if_pos rfl, lookupFused_cons, lookupFused_cons, if_pos rfl, if_pos rfl]
      simp
    · rw [if_neg hx, lookupFused_cons, lookupFused_cons, if_neg hx, if_neg hx]
      exact lookupFused_bump_self d v t

theorem lookupFused_bump_ne {α : Type} [AddCommMonoid α] (d d' : ℕ) (v : α) (hne : d' ≠ d) :
    ∀ l : List (ℕ × α), lookupFused (bump d v l) d' = lookupFused l d'
  | [] => by
    simp only [bump, lookupFused_cons, lookupFused_nil]
    rw [if_neg (Ne.symm hne)]
  | (x, s) :: t => by
    rw [bump]
    by_cases hx : x = d
    · subst hx
      rw [if_pos rfl, lookupFused_cons, lookupFused_cons]
      by_cases hx' : x = d'
      · omega
      · rw [if_neg hx', if_neg hx']
    · rw [if_neg hx, lookupFused_cons, lookupFused_cons]
      by_cases hx' : x = d'
      · rw [if_pos hx', if_pos hx']
      · rw [if_neg hx', if_neg hx']
        exact lookupFused_bump_ne d d' v hne t

/-- The inner fold of `reciprocal_rank_fusion` over one enumerated
ranking (`for rank, (doc_idx, _) in enumerate(ranking)`). -/
def rrfFoldRanking {α : Type} [LinearOrderedField α] (k : ℕ) (ps : List (ℕ × ℕ × α))
    (acc : List (ℕ × α)) : List (ℕ × α) :=
  ps.foldl (fun acc2 p => bump p.2.1 (1 / ((k : α) + (p.1 : α) + 1)) acc2) acc

/-- The outer fold of `reciprocal_rank_fusion` over all rankings. -/
def rrfFoldAll {α : Type} [LinearOrderedField α] (k : ℕ) (rankings : List (List (ℕ × α)))
    (acc : List (ℕ × α)) : List (ℕ × α) :=
  rankings.foldl (fun acc2 ranking => rrfFoldRanking k ranking.enum acc2) acc

theorem reciprocal_rank_fusion_eq {α : Type} [LinearOrderedField α]
    (rankings : List (List (ℕ × α))) (k : ℕ) :
    reciprocal_rank_fusion rankings k = sortByScoreDesc (rrfFoldAll k rankings []) := rfl

/-- Contribution of one enumerated ranking to document `d`: the sum of
`1/(k + rank + 1)` over the positions where `d` appears. -/
def rankContribution {α : Type} [LinearOrderedField α] (k : ℕ) (d : ℕ)
    (ps : List (ℕ × ℕ × α)) : α :=
  ((ps.filter (fun p => p.2.1 = d)).map (fun p => 1 / ((k : α) + (p.1 : α) + 1))).sum

theorem rankContribution_cons {α : Type} [LinearOrderedField α] (k d : ℕ)
    (p : ℕ × ℕ × α) (ps : List (ℕ × ℕ × α)) :
    rankContribution k d (p :: ps) =
      (if p.2.1 = d then 1 / ((k : α) + (p.1 : α) + 1) else 0) + rankContribution k d ps := by
  by_cases h : p.2.1 = d
  · simp [rankContribution, List.filter_cons, h]
  · simp [rankContribution, List.filter_cons, h]

theorem rrfFoldRanking_lookup {α : Type} [LinearOrderedField α] (k : ℕ) (d : ℕ) :
    ∀ (ps : List (ℕ × ℕ × α)) (acc : List (ℕ × α)),
      (lookupFused (rrfFoldRanking k ps acc) d).getD 0
          = (lookupFused acc d).getD 0 + rankContribution k d ps ∧
      ((lookupFused (rrfFoldRanking k ps acc) d).isSome ↔
        (lookupFused acc d).isSome ∨ ∃ p ∈ ps, p.2.1 = d)
  | [], acc => by simp [rrfFoldRanking, rankContribution]
  | p :: ps, acc => by
    have hstep : rrfFoldRanking k (p :: ps) acc =
        rrfFoldRanking k ps (bump p.2.1 (1 / ((k : α) + (p.1 : α) + 1)) acc) := rfl
    set acc2 := bump p.2.1 (1 / ((k : α) + (p.1 : α) + 1)) acc with hacc2
    have IH := rrfFoldRanking_lookup k d ps acc2
    rw [hstep]
    by_cases hpd : p.2.1 = d
    · subst hpd
      have hself := lookupFused_bump_self p.2.1 (1 / ((k : α) + (p.1 : α) + 1)) acc
      constructor
      · rw [IH.1, hacc2, hself]
        simp only [Option.getD_some]
        rw [rankContribution_cons, if_pos rfl]
        ring
      · rw [IH.2]
        constructor
        · intro _; exact Or.inr ⟨p, List.mem_cons_self _ _, rfl⟩
        · intro _
          left
          rw [hacc2, hself]
          rfl
    · have hne := lookupFused_bump_ne p.2.1 d (1 / ((k : α) + (p.1 : α) + 1))
        (fun h => hpd h.symm) acc
      constructor
      · rw [IH.1, hacc2, hne, rankContribution_cons, if_neg hpd]
        ring
      · rw [IH.2, hacc2, hne]
        constructor
        · rintro (h | ⟨q, hq, hqd⟩)
          · exact Or.inl h
          · exact Or.inr ⟨q, List.mem_cons_of_mem _ hq, hqd⟩
        · rintro (h | ⟨q, hq, hqd⟩)
          · exact Or.inl h
          · rcases List.mem_cons.mp hq with rfl | hq
            · exact absurd hqd hpd
            · exact Or.inr ⟨q, hq, hqd⟩

theorem rrfFoldAll_lookup {α : Type} [LinearOrderedField α] (k : ℕ) (d : ℕ) :
    ∀ (rankings : List (List (ℕ × α))) (acc : List (ℕ × α)),
      (lookupFused (rrfFoldAll k rankings acc) d).getD 0
          = (lookupFused acc d).getD 0 +
            (rankings.map (fun rk => rankContribution k d rk.enum)).sum ∧
      ((lookupFused (rrfFoldAll k rankings acc) d).isSome ↔
        (lookupFused acc d).isSome ∨ ∃ rk ∈ rankings, ∃ p ∈ rk.enum, p.2.1 = d)
  | [], acc => by simp [rrfFoldAll]
  | rk :: rankings, acc => by
    have hstep : rrfFoldAll k (rk :: rankings) acc =
        rrfFoldAll k rankings (rrfFoldRanking k rk.enum acc) := rfl
    set acc2 := rrfFoldRanking k rk.enum acc with hacc2
    have IH := rrfFoldAll_lookup k d rankings acc2
    have hone := rrfFoldRanking_lookup k d rk.enum acc
    rw [hstep]
    constructor
    · rw [IH.1, hacc2, hone.1, List.map_cons, List.sum_cons]
      ring
    · rw [IH.2, hacc2, hone.2]
      constructor
      · rintro ((h | hp) | ⟨rk', hrk', hp⟩)
        · exact Or.inl h
        · exact Or.inr ⟨rk, List.mem_cons_self _ _, hp⟩
        · exact Or.inr ⟨rk', List.mem_cons_of_mem _ hrk', hp⟩
      · rintro (h | ⟨rk', hrk', hp⟩)
        · exact Or.inl (Or.inl h)
        · rcases List.mem_cons.mp hrk' with rfl | hrk'
          · exact Or.inl (Or.inr hp)
          · exact Or.inr ⟨rk', hrk', hp⟩

theorem bump_fresh {α : Type} [Add α] (d : ℕ) (v : α) :
    ∀ l : List (ℕ × α), d ∉ l.map Prod.fst → bump d v l = l ++ [(d, v)]
  | [] => by simp [bump]
  | (x, s) :: t => fun h => by
    rw [bump, if_neg (fun hx => h (by simp [hx]))]
    rw [bump_fresh d v t (fun hm => h (by simp [hm]))]
    simp

theorem bump_keys_nodup {α : Type} [Add α] (d : ℕ) (v : α) (l : List (ℕ × α))
    (h : (l.map Prod.fst).Nodup) : ((bump d v l).map Prod.fst).Nodup := by
  rw [bump_keys]
  by_cases hd : d ∈ l.map Prod.fst
  · rw [if_pos hd]; exact h
  · rw [if_neg hd]
    exact h.append (List.nodup_singleton d) (by
      intro a ha hamem
      simp only [List.mem_singleton] at hamem
      exact hd (hamem ▸ ha))

theorem rrfFoldRanking_keys_nodup {α : Type} [LinearOrderedField α] (k : ℕ) :
    ∀ (ps : List (ℕ × ℕ × α)) (acc : List (ℕ × α)),
      (acc.map Prod.fst).Nodup → ((rrfFoldRanking k ps acc).map Prod.fst).Nodup
  | [], acc => fun h => h
  | p :: ps, acc => fun h =>
    rrfFoldRanking_keys_nodup k ps _ (bump_keys_nodup _ _ _ h)

theorem rrfFoldAll_keys_nodup {α : Type} [LinearOrderedField α] (k : ℕ) :
    ∀ (rankings : List (List (ℕ × α))) (acc : List (ℕ × α)),
      (acc.map Prod.fst).Nodup → ((rrfFoldAll k rankings acc).map Prod.fst).Nodup
  | [], acc => fun h => h
  | rk :: rankings, acc => fun h =>
    rrfFoldAll_keys_nodup k rankings _ (rrfFoldRanking_keys_nodup k rk.enum acc h)

theorem lookupFused_eq_none_iff {α : Type} (l : List (ℕ × α)) (d : ℕ) :
    lookupFused l d = none ↔ d ∉ l.map Prod.fst := by
  rw [lookupFused, Option.map_eq_none', List.find?_eq_none]
  simp only [beq_iff_eq, List.mem_map]
  constructor
  · rintro h ⟨p, hp, rfl⟩
    exact h p hp rfl
  · rintro h p hp rfl
    exact h ⟨p, hp, rfl⟩

theorem lookupFused_eq_some_iff {α : Type} {l : List (ℕ × α)}
    (hnd : (l.map Prod.fst).Nodup) (d : ℕ) (v : α) :
    lookupFused l d = some v ↔ (d, v) ∈ l := by
  induction l with
  | nil => simp [lookupFused]
  | cons a t IH =>
    obtain ⟨x, s⟩ := a
    simp only [List.map_cons, List.nodup_cons] at hnd
    rw [lookupFused_cons]
    by_cases hx : x = d
    · subst hx
      rw [if_pos rfl]
      constructor
      · rintro h
        injection h with h
        subst h
        exact List.mem_cons_self _ _
      · intro h
        rcases List.mem_cons.mp h with heq | hmem
        · injection heq with _ h2; rw [h2]
        · exact absurd (List.mem_map.mpr ⟨(x, v), hmem, rfl⟩) hnd.1
    · rw [if_neg hx]
      rw [IH hnd.2]
      constructor
      · exact List.mem_cons_of_mem _
      · intro h
        rcases List.mem_cons.mp h with heq | hmem
        · injection heq with h1 _; exact absurd h1.symm hx
        · exact hmem

/-- Lookup is invariant under permutations when the keys are distinct. -/
theorem lookupFused_perm {α : Type} {l l' : List (ℕ × α)}
    (hperm : List.Perm l l') (hnd : (l.map Prod.fst).Nodup) (d : ℕ) :
    lookupFused l' d = lookupFused l d := by
  have hnd' : (l'.map Prod.fst).Nodup := (hperm.map Prod.fst).nodup_iff.mp hnd
  cases hl : lookupFused l d with
  | some v =>
      exact (lookupFused_eq_some_iff hnd' d v).mpr
        (hperm.mem_iff.mp ((lookupFused_eq_some_iff hnd d v).mp hl))
  | none =>
      rw [lookupFused_eq_none_iff] at hl ⊢
      intro hmem
      exact hl ((hperm.map Prod.fst).mem_iff.mpr hmem)

theorem enum_pairwise_fst {α : Type} (l : List α) :
    l.enum.Pairwise (fun a b => a.1 < b.1) := by
  have h1 : l.enum.map Prod.fst = List.range l.length := List.enum_map_fst l
  have h2 : (l.enum.map Prod.fst).Pairwise (· < ·) := by
    rw [h1]; exact List.pairwise_lt_range _
  exact (List.pairwise_map.mp h2)

theorem enum_doc_ids {α : Type} (l : List (ℕ × α)) :
    l.enum.map (fun p => p.2.1) = l.map Prod.fst := by
  have : (fun p : ℕ × ℕ × α => p.2.1) = Prod.fst ∘ Prod.snd := rfl
  rw [this, ← List.map_map, List.enum_map_snd]

theorem rrfFoldRanking_fresh {α : Type} [LinearOrderedField α] (k : ℕ) :
    ∀ (ps : List (ℕ × ℕ × α)) (acc : List (ℕ × α)),
      (ps.map (fun p => p.2.1)).Nodup →
      (∀ p ∈ ps, p.2.1 ∉ acc.map Prod.fst) →
      rrfFoldRanking k ps acc =
        acc ++ ps.map (fun p => (p.2.1, 1 / ((k : α) + (p.1 : α) + 1)))
  | [], acc => by simp [rrfFoldRanking]
  | p :: ps, acc => fun hnd hfresh => by
    have hstep : rrfFoldRanking k (p :: ps) acc =
        rrfFoldRanking k ps (bump p.2.1 (1 / ((k : α) + (p.1 : α) + 1)) acc) := rfl
    rw [hstep, bump_fresh _ _ _ (hfresh p (List.mem_cons_self _ _))]
    simp only [List.map_cons, List.nodup_cons] at hnd
    rw [rrfFoldRanking_fresh k ps _ hnd.2 ?_]
    · simp
    · intro q hq
      rw [List.map_append]
      intro hmem
      rcases List.mem_append.mp hmem with h | h
      · exact hfresh q (List.mem_cons_of_mem _ hq) h
      · simp only [List.map_cons, List.map_nil, List.mem_singleton] at h
        exact hnd.1 (h ▸ List.mem_map.mpr ⟨q, hq, rfl⟩)

instance {α : Type} [LinearOrder α] : IsTotal (ℕ × α) scoreGE :=
  ⟨fun a b => le_total b.2 a.2⟩

instance {α : Type} [LinearOrder α] : IsTrans (ℕ × α) scoreGE :=
  ⟨fun _ _ _ hab hbc => le_trans hbc hab⟩

theorem sortByScoreDesc_sorted {α : Type} [LinearOrder α] (l : List (ℕ × α)) :
    (sortByScoreDesc l).Pairwise scoreGE := List.sorted_insertionSort scoreGE l

theorem mem_enum_doc {α : Type} (rk : List (ℕ × α)) (d : ℕ) :
    (∃ p ∈ rk, p.1 = d) ↔ ∃ q ∈ rk.enum, q.2.1 = d := by
  constructor
  · rintro ⟨p, hp, rfl⟩
    have hm : p ∈ rk.enum.map Prod.snd := by rw [List.enum_map_snd]; exact hp
    obtain ⟨q, hq, hqp⟩ := List.mem_map.mp hm
    exact ⟨q, hq, by rw [hqp]⟩
  · rintro ⟨q, hq, hqd⟩
    refine ⟨q.2, ?_, hqd⟩
    have hm : q.2 ∈ rk.enum.map Prod.snd := List.mem_map.mpr ⟨q, hq, rfl⟩
    rw [List.enum_map_snd] at hm
    exact hm

/-- C7: reciprocal rank fusion with k = 60.  A document appearing at
0-based position `r` of a ranking receives `1/(60 + r + 1)` from that
ranking and the fused score is the sum of these contributions; a
document absent from every ranking is absent from the output; the
output is ordered by non-increasing fused score; an empty ranking list
fuses to the empty ranking; a single duplicate-free ranking keeps its
order; and two disjoint duplicate-free rankings fuse to exactly the
union of their documents. -/
theorem reciprocal_rank_fusion_spec {α : Type} [LinearOrderedField α]
    (rankings : List (List (ℕ × α))) :
    (∀ d, (∃ rk ∈ rankings, ∃ p ∈ rk, p.1 = d) →
      lookupFused (reciprocal_rank_fusion rankings 60) d =
        some ((rankings.map (fun rk => rankContribution 60 d rk.enum)).sum)) ∧
    (∀ d, ¬ (∃ rk ∈ rankings, ∃ p ∈ rk, p.1 = d) →
      lookupFused (reciprocal_rank_fusion rankings 60) d = none) ∧
    (reciprocal_rank_fusion rankings 60).Pairwise scoreGE ∧
    (rankings = [] → reciprocal_rank_fusion rankings 60 = []) ∧
    (∀ rk, rankings = [rk] → (rk.map Prod.fst).Nodup →
      (reciprocal_rank_fusion rankings 60).map Prod.fst = rk.map Prod.fst) ∧
    (∀ r1 r2, rankings = [r1, r2] → (r1.map Prod.fst).Nodup → (r2.map Prod.fst).Nodup →
      (∀ d ∈ r1.map Prod.fst, d ∉ r2.map Prod.fst) →
      List.Perm ((reciprocal_rank_fusion rankings 60).map Prod.fst)
        (r1.map Prod.fst ++ r2.map Prod.fst)) := by
  have h_eq := reciprocal_rank_fusion_eq rankings 60
  set fused := rrfFoldAll 60 rankings [] with hfused
  have hperm : List.Perm (reciprocal_rank_fusion rankings 60) fused := by
    rw [h_eq]; exact sortByScoreDesc_perm fused
  have hnd : (fused.map Prod.fst).Nodup := rrfFoldAll_keys_nodup 60 rankings [] (by simp)
  have hlk : ∀ d, lookupFused (reciprocal_rank_fusion rankings 60) d = lookupFused fused d :=
    fun d => lookupFused_perm hperm.symm hnd d
  have hacc := fun d => rrfFoldAll_lookup (α := α) 60 d rankings []
  refine ⟨?_, ?_, ?_, ?_, ?_, ?_⟩
  · intro d happ
    have happ' : ∃ rk ∈ rankings, ∃ q ∈ rk.enum, q.2.1 = d := by
      obtain ⟨rk, hrk, hp⟩ := happ
      exact ⟨rk, hrk, (mem_enum_doc rk d).mp hp⟩
    have hsome : (lookupFused fused d).isSome := by
      rw [hfused, (hacc d).2]
      exact Or.inr happ'
    obtain ⟨v, hv⟩ := Option.isSome_iff_exists.mp hsome
    have hval := (hacc d).1
    rw [← hfused] at hval
    rw [hv] at hval
    simp only [Option.getD_some, lookupFused_nil, Option.getD_none] at hval
    rw [hlk d, hv, hval]
    rw [zero_add]
  · intro d happ
    have happ' : ¬ ∃ rk ∈ rankings, ∃ q ∈ rk.enum, q.2.1 = d := by
      intro ⟨rk, hrk, hq⟩
      exact happ ⟨rk, hrk, (mem_enum_doc rk d).mpr hq⟩
    have hnone : ¬ (lookupFused fused d).isSome := by
      rw [hfused, (hacc d).2]
      rintro (h | h)
      · simp [lookupFused_nil] at h
      · exact happ' h
    rw [hlk d]
    exact Option.not_isSome_iff_eq_none.mp hnone
  · rw [h_eq]; exact sortByScoreDesc_sorted fused
  · intro h; subst h; rfl
  · intro rk hrk hnodup
    subst hrk
    have henumnd : (rk.enum.map (fun p => p.2.1)).Nodup := by
      rw [enum_doc_ids]; exact hnodup
    have hfr : rrfFoldAll 60 [rk] ([] : List (ℕ × α)) =
        rk.enum.map (fun p => (p.2.1, 1 / ((60 : α) + (p.1 : α) + 1))) := by
      show rrfFoldRanking 60 rk.enum [] = _
      rw [rrfFoldRanking_fresh 60 rk.enum [] henumnd (by simp)]
      simp
    have hsorted : (rk.enum.map
        (fun p => (p.2.1, 1 / ((60 : α) + (p.1 : α) + 1)))).Pairwise scoreGE := by
      rw [List.pairwise_map]
      refine (enum_pairwise_fst rk).imp ?_
      intro a b hab
      show (1 : α) / ((60 : α) + (b.1 : α) + 1) ≤ 1 / ((60 : α) + (a.1 : α) + 1)
      apply one_div_le_one_div_of_le
      · positivity
      · have : (a.1 : α) ≤ (b.1 : α) := by exact_mod_cast le_of_lt hab
        linarith
    rw [h_eq, hfused, hfr]
    rw [show sortByScoreDesc (rk.enum.map
      (fun p => (p.2.1, 1 / ((60 : α) + (p.1 : α) + 1)))) = rk.enum.map
      (fun p => (p.2.1, 1 / ((60 : α) + (p.1 : α) + 1))) from
      List.Sorted.insertionSort_eq hsorted]
    rw [List.map_map]
    exact enum_doc_ids rk
  · intro r1 r2 hrk hnd1 hnd2 hdisj
    subst hrk
    have henumnd1 : (r1.enum.map (fun p => p.2.1)).Nodup := by
      rw [enum_doc_ids]; exact hnd1
    have henumnd2 : (r2.enum.map (fun p => p.2.1)).Nodup := by
      rw [enum_doc_ids]; exact hnd2
    have hacc1 : rrfFoldRanking 60 r1.enum ([] : List (ℕ × α)) =
        r1.enum.map (fun p => (p.2.1, 1 / ((60 : α) + (p.1 : α) + 1))) := by
      rw [rrfFoldRanking_fresh 60 r1.enum [] henumnd1 (by simp)]
      simp
    have hacc1keys : (rrfFoldRanking 60 r1.enum ([] : List (ℕ × α))).map Prod.fst =
        r1.map Prod.fst := by
      rw [hacc1, List.map_map]
      exact enum_doc_ids r1
    have hfr : rrfFoldAll 60 [r1, r2] ([] : List (ℕ × α)) =
        rrfFoldRanking 60 r1.enum [] ++
          r2.enum.map (fun p => (p.2.1, 1 / ((60 : α) + (p.1 : α) + 1))) := by
      show rrfFoldRanking 60 r2.enum (rrfFoldRanking 60 r1.enum []) = _
      apply rrfFoldRanking_fresh 60 r2.enum _ henumnd2
      intro q hq
      rw [hacc1keys]
      intro hmem
      have hq2 : q.2.1 ∈ r2.map Prod.fst := by
        rw [← enum_doc_ids]
        exact List.mem_map.mpr ⟨q, hq, rfl⟩
      exact hdisj q.2.1 hmem hq2
    have hkeys : (rrfFoldAll 60 [r1, r2] ([] : List (ℕ × α))).map Prod.fst =
        r1.map Prod.fst ++ r2.map Prod.fst := by
      rw [hfr, List.map_append, hacc1keys, List.map_map]
      exact congrArg (List.map Prod.fst r1 ++ ·) (enum_doc_ids r2)
    have := hperm.map Prod.fst
    rw [hfused] at this
    rw [hkeys] at this
    exact this

/-- Witness for C7: two concrete disjoint rankings over `ℚ` fuse to the
union of their documents. -/
theorem reciprocal_rank_fusion_spec_witness :
    List.Perm ((reciprocal_rank_fusion [[(0, (5 : ℚ)), (1, 3)], [(2, 2), (3, 1)]] 60).map
      Prod.fst) ([0, 1] ++ [2, 3]) := by
  have h := (reciprocal_rank_fusion_spec
    [[(0, (5 : ℚ)), (1, 3)], [(2, 2), (3, 1)]]).2.2.2.2.2
    [(0, (5 : ℚ)), (1, 3)] [(2, 2), (3, 1)] rfl (by decide) (by decide) (by decide)
  simpa using h

/-! ## C10: totality of the cosine similarity used by search -/

/-- C10: `cosine_similarity_matrix` is total.  The query divisor
`norm + eps` is used only when the query norm exceeds `eps = 1e-10` and
is then nonzero; each document divisor is strictly positive (the norm
when it exceeds `eps`, otherwise 1); a query whose norm is at or below
`eps` is used unnormalized instead of causing a division by zero. -/
theorem cosine_similarity_matrix_spec (query : List ℝ) (documents : List (List ℝ)) :
    (l2norm query > 1e-10 → l2norm query + 1e-10 ≠ 0) ∧
    (∀ d ∈ documents, (0 : ℝ) < (if l2norm d > 1e-10 then l2norm d else 1)) ∧
    (l2norm query ≤ 1e-10 →
      cosine_similarity_matrix query documents =
        documents.map (fun d =>
          dotList (d.map (fun x => x / (if l2norm d > 1e-10 then l2norm d else 1))) query)) ∧
    (l2norm query > 1e-10 →
      cosine_similarity_matrix query documents =
        documents.map (fun d =>
          dotList (d.map (fun x => x / (if l2norm d > 1e-10 then l2norm d else 1)))
            (query.map (fun x => x / (l2norm query + 1e-10))))) := by
  have hnn : (0 : ℝ) ≤ l2norm query := Real.sqrt_nonneg _
  refine ⟨?_, ?_, ?_, ?_⟩
  · intro h
    have heps : (0 : ℝ) < 1e-10 := by norm_num
    linarith
  · intro d _
    by_cases hd : l2norm d > 1e-10
    · rw [if_pos hd]
      have heps : (0 : ℝ) < 1e-10 := by norm_num
      linarith
    · rw [if_neg hd]
      norm_num
  · intro h
    rw [cosine_similarity_matrix]
    rw [if_neg (by exact not_lt.mpr h)]
    rw [List.map_map]
    rfl
  · intro h
    rw [cosine_similarity_matrix]
    rw [if_pos h]
    rw [List.map_map]
    rfl

/-- Witness for C10: the zero query vector has norm 0 ≤ eps and is used
unnormalized, so the similarity against a unit document evaluates to 0
rather than failing. -/
theorem cosine_similarity_matrix_spec_witness :
    l2norm [(0 : ℝ)] ≤ 1e-10 ∧ cosine_similarity_matrix [(0 : ℝ)] [[1]] = [0] := by
  have h0 : l2norm [(0 : ℝ)] ≤ 1e-10 := by
    simp only [l2norm, List.map_cons, List.map_nil, List.sum_cons, List.sum_nil]
    rw [show (0 : ℝ) ^ 2 + 0 = 0 by norm_num, Real.sqrt_zero]
    norm_num
  refine ⟨h0, ?_⟩
  rw [(cosine_similarity_matrix_spec [(0 : ℝ)] [[1]]).2.2.1 h0]
  simp [dotList]

/-! ## C5: the per-repository lexical-index cache -/

theorem cacheLookup_cons {β : Type} (x : String × β) (t : List (String × β)) (key : String) :
    cacheLookup (x :: t) key = if x.1 = key then some x.2 else cacheLookup t key := by
  by_cases h : x.1 = key
  · simp [cacheLookup, List.find?_cons, h]
  · simp [cacheLookup, List.find?_cons, h]

theorem cacheLookup_append_of_none {β : Type} (key : String) (v : β) :
    ∀ l : List (String × β), cacheLookup l key = none →
      cacheLookup (l ++ [(key, v)]) key = some v
  | [], _ => by simp [cacheLookup, List.find?_cons]
  | x :: t, h => by
    rw [List.cons_append, cacheLookup_cons]
    rw [cacheLookup_cons] at h
    by_cases hx : x.1 = key
    · rw [if_pos hx] at h; exact absurd h (by simp)
    · rw [if_neg hx] at h ⊢
      exact cacheLookup_append_of_none key v t h

theorem cacheLookup_replace {β : Type} (key : String) (v : β) :
    ∀ l : List (String × β), cacheLookup l key ≠ none →
      cacheLookup (l.map (fun e => if e.1 = key then (e.1, v) else e)) key = some v
  | [], h => absurd rfl h
  | x :: t, h => by
    rw [cacheLookup_cons] at h
    rw [List.map_cons]
    by_cases hx : x.1 = key
    · rw [if_pos hx, cacheLookup_cons, if_pos hx]
    · rw [if_neg hx, cacheLookup_cons, if_neg hx]
      rw [if_neg hx] at h
      exact cacheLookup_replace key v t h

theorem cacheLookup_isSome_iff {β : Type} (l : List (String × β)) (key : String) :
    (l.find? (fun e => e.1 == key)).isSome ↔ cacheLookup l key ≠ none := by
  rw [cacheLookup]
  cases l.find? (fun e => e.1 == key) with
  | none => simp
  | some e => simp

theorem cacheLookup_cacheInsert_self {β : Type} (cache : List (String × β)) (key : String)
    (v : β) : cacheLookup (cacheInsert cache key v) key = some v := by
  rw [cacheInsert]
  by_cases h : (cache.find? (fun e => e.1 == key)).isSome
  · rw [if_pos h]
    have hbeq : (fun e : String × β => if e.1 == key then (e.1, v) else e) =
        fun e => if e.1 = key then (e.1, v) else e := by
      funext e
      by_cases hx : e.1 = key
      · rw [if_pos hx, if_pos (by simpa using hx)]
      · rw [if_neg hx, if_neg (by simpa using hx)]
    rw [hbeq]
    exact cacheLookup_replace key v cache ((cacheLookup_isSome_iff cache key).mp h)
  · rw [if_neg h]
    have : cacheLookup cache key = none := by
      by_contra hcon
      exact h ((cacheLookup_isSome_iff cache key).mpr hcon)
    exact cacheLookup_append_of_none key v cache this

/-- C5: the cached lexical index is reused exactly when no file-pattern
filter is applied, a cache entry exists for the repository, and the
entry's stored chunk-id sequence equals the current unfiltered one; on
reuse the cached index is returned and the cache is untouched; a filter
bypasses and never populates the cache; without a filter a cache miss
builds a fresh index over the (possibly filtered) chunk texts and stores
it keyed by the unfiltered chunk ids, replacing any previous entry. -/
theorem lexicalStep_spec {E I : Type} (buildIndex : List String → I)
    (bm25_cache : List (String × I × List ℕ)) (cache_key file_pattern : String)
    (all_chunks chunks : List (StoredChunk E)) :
    ((lexicalStep buildIndex bm25_cache cache_key file_pattern all_chunks chunks).2.1 = true ↔
      file_pattern = "" ∧
      ∃ e, cacheLookup bm25_cache cache_key = some e ∧
        e.2 = all_chunks.map (fun c => c.id)) ∧
    ((lexicalStep buildIndex bm25_cache cache_key file_pattern all_chunks chunks).2.1 = true →
      (∃ e, cacheLookup bm25_cache cache_key = some e ∧
        (lexicalStep buildIndex bm25_cache cache_key file_pattern all_chunks chunks).1 = e.1) ∧
      (lexicalStep buildIndex bm25_cache cache_key file_pattern all_chunks chunks).2.2 =
        bm25_cache) ∧
    (file_pattern ≠ "" →
      (lexicalStep buildIndex bm25_cache cache_key file_pattern all_chunks chunks).1 =
        buildIndex (chunks.map (fun c => c.chunk_text)) ∧
      (lexicalStep buildIndex bm25_cache cache_key file_pattern all_chunks chunks).2.1 =
        false ∧
      (lexicalStep buildIndex bm25_cache cache_key file_pattern all_chunks chunks).2.2 =
        bm25_cache) ∧
    (file_pattern = "" →
      (lexicalStep buildIndex bm25_cache cache_key file_pattern all_chunks chunks).2.1 =
        false →
      (lexicalStep buildIndex bm25_cache cache_key file_pattern all_chunks chunks).1 =
        buildIndex (chunks.map (fun c => c.chunk_text)) ∧
      (lexicalStep buildIndex bm25_cache cache_key file_pattern all_chunks chunks).2.2 =
        cacheInsert bm25_cache cache_key
          (buildIndex (chunks.map (fun c => c.chunk_text)), all_chunks.map (fun c => c.id)) ∧
      cacheLookup
        ((lexicalStep buildIndex bm25_cache cache_key file_pattern all_chunks chunks).2.2)
        cache_key =
        some (buildIndex (chunks.map (fun c => c.chunk_text)),
          all_chunks.map (fun c => c.id))) := by
  by_cases hpat : file_pattern = ""
  · cases hlook : cacheLookup bm25_cache cache_key with
    | none =>
        have hout : lexicalStep buildIndex bm25_cache cache_key file_pattern all_chunks chunks =
            (buildIndex (chunks.map (fun c => c.chunk_text)), false,
              cacheInsert bm25_cache cache_key
                (buildIndex (chunks.map (fun c => c.chunk_text)),
                  all_chunks.map (fun c => c.id))) := by
          rw [lexicalStep]
          simp [hpat, hlook]
        rw [hout]
        refine ⟨by simp [hlook], by simp, by intro h; exact absurd hpat h, ?_⟩
        intro _ _
        exact ⟨rfl, rfl, cacheLookup_cacheInsert_self _ _ _⟩
    | some e =>
        by_cases hids : e.2 = all_chunks.map (fun c => c.id)
        · have hout : lexicalStep buildIndex bm25_cache cache_key file_pattern all_chunks
              chunks = (e.1, true, bm25_cache) := by
            rw [lexicalStep]
            simp [hpat, hlook, hids]
          rw [hout]
          refine ⟨by simp [hpat, hlook, hids], ?_, by intro h; exact absurd hpat h, ?_⟩
          · intro _
            exact ⟨⟨e, rfl, rfl⟩, rfl⟩
          · intro _ h
            exact absurd h (by simp)
        · have hout : lexicalStep buildIndex bm25_cache cache_key file_pattern all_chunks
              chunks = (buildIndex (chunks.map (fun c => c.chunk_text)), false,
                cacheInsert bm25_cache cache_key
                  (buildIndex (chunks.map (fun c => c.chunk_text)),
                    all_chunks.map (fun c => c.id))) := by
            rw [lexicalStep]
            simp [hpat, hlook, hids]
          rw [hout]
          refine ⟨?_, by simp, by intro h; exact absurd hpat h, ?_⟩
          · simp only [hlook]
            constructor
            · intro h; exact absurd h (by simp)
            · rintro ⟨_, e', he', hids'⟩
              injection he' with he'
              exact absurd (he' ▸ hids') hids
          · intro _ _
            exact ⟨rfl, rfl, cacheLookup_cacheInsert_self _ _ _⟩
  · have hout : lexicalStep buildIndex bm25_cache cache_key file_pattern all_chunks chunks =
        (buildIndex (chunks.map (fun c => c.chunk_text)), false, bm25_cache) := by
      rw [lexicalStep]
      simp [hpat]
    rw [hout]
    refine ⟨by simp [hpat], by simp, ?_, ?_⟩
    · intro _
      exact ⟨rfl, rfl, rfl⟩
    · intro h
      exact absurd h hpat

/-- Witness for C5: with a nonempty file pattern the cache is bypassed
and unchanged, and the index is built fresh over the filtered texts. -/
theorem lexicalStep_spec_witness :
    (lexicalStep (E := ℕ) List.length [("repo", 7, [1, 2])] "repo" "*.py" [] []).1 = 0 ∧
    (lexicalStep (E := ℕ) List.length [("repo", 7, [1, 2])] "repo" "*.py" [] []).2.1 =
      false ∧
    (lexicalStep (E := ℕ) List.length [("repo", 7, [1, 2])] "repo" "*.py" [] []).2.2 =
      [("repo", 7, [1, 2])] :=
  (lexicalStep_spec (E := ℕ) List.length [("repo", 7, [1, 2])] "repo" "*.py" [] []).2.2.1
    (by decide)

/-! ## C2: cache eviction after reconciliation -/

theorem cacheLookup_cacheErase {β : Type} (cache : List (String × β)) (key : String) :
    cacheLookup (cacheErase cache key) key = none := by
  rw [cacheLookup, Option.map_eq_none', List.find?_eq_none]
  intro e he
  have hmem := List.mem_filter.mp he
  simpa using hmem.2

/-- Counterexample to C2 as stated: a reconciliation pass that only
removes a stale file reports a change (`files_removed = 1`) but does not
evict the repository's cache entry, because the eviction is guarded by
`files_updated > 0` alone. -/
theorem reconcileAndEvict_counterexample :
    ((reconcileAndEvict (⟨[(1, "repo")], 2, [⟨1, 1, "gone.py", 5, 1, 3, "text", 0⟩], 2⟩ :
        DB ℕ) ⟨[], fun _ => none, fun _ => none⟩ "repo" (fun _ => 0) (fun _ _ => [])
        [("repo", 7)]).2.1.files_removed = 1) ∧
    ((reconcileAndEvict (⟨[(1, "repo")], 2, [⟨1, 1, "gone.py", 5, 1, 3, "text", 0⟩], 2⟩ :
        DB ℕ) ⟨[], fun _ => none, fun _ => none⟩ "repo" (fun _ => 0) (fun _ _ => [])
        [("repo", 7)]).2.1.files_updated = 0) ∧
    cacheLookup ((reconcileAndEvict
        (⟨[(1, "repo")], 2, [⟨1, 1, "gone.py", 5, 1, 3, "text", 0⟩], 2⟩ : DB ℕ)
        ⟨[], fun _ => none, fun _ => none⟩ "repo" (fun _ => 0) (fun _ _ => [])
        [("repo", 7)]).2.2) "repo" = some 7 := by
  decide

/-- C2 (amended): the reconciliation prefix of `search` evicts the
repository's cache entry exactly when the pass reports updated files
(`files_updated > 0`, which coincides with added chunks); a pass
reporting no updated files — in particular one that only removed files —
leaves the cache untouched, and staleness is then caught only by the
chunk-identity comparison of the cache step. -/
theorem reconcileAndEvict_spec {E β : Type} (db : DB E) (fs : FS) (repo_root : String)
    (embed : String → E) (chunker : String → String → List Chunk)
    (bm25_cache : List (String × β)) :
    ((reconcileAndEvict db fs repo_root embed chunker bm25_cache).2.1.files_updated > 0 →
      cacheLookup (reconcileAndEvict db fs repo_root embed chunker bm25_cache).2.2
        repo_root = none ∧
      (reconcileAndEvict db fs repo_root embed chunker bm25_cache).2.2 =
        cacheErase bm25_cache repo_root) ∧
    ((reconcileAndEvict db fs repo_root embed chunker bm25_cache).2.1.files_updated = 0 →
      (reconcileAndEvict db fs repo_root embed chunker bm25_cache).2.2 = bm25_cache) ∧
    (reconcileAndEvict db fs repo_root embed chunker bm25_cache).2.1 =
      (index_repo db fs repo_root embed chunker false).2.1 ∧
    (reconcileAndEvict db fs repo_root embed chunker bm25_cache).1 =
      (index_repo db fs repo_root embed chunker false).1 := by
  refine ⟨?_, ?_, rfl, rfl⟩
  · intro h
    have hcond : (reconcileAndEvict db fs repo_root embed chunker bm25_cache).2.2 =
        cacheErase bm25_cache repo_root := by
      rw [reconcileAndEvict] at h ⊢
      simp only at h ⊢
      rw [if_pos h]
    exact ⟨by rw [hcond]; exact cacheLookup_cacheErase _ _, hcond⟩
  · intro h
    rw [reconcileAndEvict] at h ⊢
    simp only at h ⊢
    rw [if_neg (by omega)]

/-- Witness for C2 (amended): a pass over an empty repository reports no
updated files and leaves the concrete cache unchanged. -/
theorem reconcileAndEvict_spec_witness :
    ((reconcileAndEvict (⟨[], 1, [], 1⟩ : DB ℕ) ⟨[], fun _ => none, fun _ => none⟩ "r"
      (fun _ => 0) (fun _ _ => []) [("r", 3)]).2.1.files_updated = 0) ∧
    (reconcileAndEvict (⟨[], 1, [], 1⟩ : DB ℕ) ⟨[], fun _ => none, fun _ => none⟩ "r"
      (fun _ => 0) (fun _ _ => []) [("r", 3)]).2.2 = [("r", 3)] :=
  ⟨by decide,
   (reconcileAndEvict_spec (⟨[], 1, [], 1⟩ : DB ℕ) ⟨[], fun _ => none, fun _ => none⟩ "r"
      (fun _ => 0) (fun _ _ => []) [("r", 3)]).2.1 (by decide)⟩

/-! ## C8: all stored chunks of a file share one modification time -/

/-- The store invariant: for each `(repo_id, file_path)` all stored
chunks carry the same `file_mtime`. -/
def mtimeConsistent {E : Type} (chunks : List (StoredChunk E)) : Prop :=
  ∀ c1 ∈ chunks, ∀ c2 ∈ chunks,
    c1.repo_id = c2.repo_id → c1.file_path = c2.file_path → c1.file_mtime = c2.file_mtime

instance {E : Type} (chunks : List (StoredChunk E)) : Decidable (mtimeConsistent chunks) :=
  inferInstanceAs (Decidable (∀ c1 ∈ chunks, ∀ c2 ∈ chunks,
    c1.repo_id = c2.repo_id → c1.file_path = c2.file_path → c1.file_mtime = c2.file_mtime))

theorem get_or_create_repo_chunks {E : Type} (db : DB E) (p : String) :
    (get_or_create_repo db p).1.chunks = db.chunks := by
  rw [get_or_create_repo]
  cases db.repos.find? (fun r => r.2 == p) with
  | some r => rfl
  | none => rfl

theorem delete_file_chunks_chunks {E : Type} (db : DB E) (rid : ℕ) (f : String) :
    (delete_file_chunks db rid f).chunks =
      db.chunks.filter (fun c => !(c.repo_id == rid && c.file_path == f)) := rfl

theorem insert_chunk_chunks {E : Type} (db : DB E) (rid : ℕ) (f : String) (mt : ℚ)
    (sl el : ℕ) (tx : String) (e : E) :
    (insert_chunk db rid f mt sl el tx e).chunks =
      db.chunks ++ [⟨db.next_chunk_id, rid, f, mt, sl, el, tx, e⟩] := rfl

theorem mtimeConsistent_sublist {E : Type} {l l' : List (StoredChunk E)}
    (hsub : ∀ c ∈ l', c ∈ l) (h : mtimeConsistent l) : mtimeConsistent l' :=
  fun c1 h1 c2 h2 => h c1 (hsub c1 h1) c2 (hsub c2 h2)

theorem mtimeConsistent_delete {E : Type} (db : DB E) (rid : ℕ) (f : String)
    (h : mtimeConsistent db.chunks) :
    mtimeConsistent (delete_file_chunks db rid f).chunks := by
  rw [delete_file_chunks_chunks]
  exact mtimeConsistent_sublist (fun c hc => (List.mem_filter.mp hc).1) h

theorem mtimeConsistent_removals {E : Type} (rid : ℕ) :
    ∀ (removed : List String) (db : DB E), mtimeConsistent db.chunks →
      mtimeConsistent ((removed.foldl (fun d f => delete_file_chunks d rid f) db).chunks)
  | [], db => fun h => h
  | f :: rest, db => fun h =>
      mtimeConsistent_removals rid rest _ (mtimeConsistent_delete db rid f h)

theorem collectFiles_mtime {E : Type} (db : DB E) (rid : ℕ) (fs : FS)
    (chunker : String → String → List Chunk) (force : Bool) :
    ∀ tracked : List String, ∀ q ∈ collectFiles db rid fs chunker force tracked,
      fs.mtime q.1 = some q.2.1
  | [], q => by simp [collectFiles]
  | f :: rest, q => by
    rw [collectFiles]
    intro hq
    rcases List.mem_append.mp hq with hq | hq
    · split at hq
      · simp at hq
      · rename_i current hmt
        split at hq
        · simp at hq
        · split at hq
          · simp at hq
          · rename_i content hct
            obtain ⟨ch, _, rfl⟩ := List.mem_map.mp hq
            exact hmt
    · exact collectFiles_mtime db rid fs chunker force rest q hq

theorem storePhase_mtime {E : Type} (rid : ℕ) (fs : FS) :
    ∀ (triples : List ((String × ℚ × Chunk) × E)) (db : DB E) (processed : List String),
      mtimeConsistent db.chunks →
      (∀ q ∈ triples, fs.mtime q.1.1 = some q.1.2.1) →
      (∀ f ∈ processed, ∀ c ∈ db.chunks, c.repo_id = rid → c.file_path = f →
        fs.mtime f = some c.file_mtime) →
      mtimeConsistent (storePhase rid db processed triples).1.chunks
  | [], db, processed => fun hcons _ _ => hcons
  | ((f, mt, ch), e) :: rest, db, processed => fun hcons hU hproc => by
    have hUf : fs.mtime f = some mt := hU _ (List.mem_cons_self _ _)
    have hUrest : ∀ q ∈ rest, fs.mtime q.1.1 = some q.1.2.1 :=
      fun q hq => hU q (List.mem_cons_of_mem _ hq)
    rw [storePhase]
    by_cases hf : f ∈ processed
    · rw [if_pos hf]
      have hrow : (insert_chunk db rid f mt ch.start_line ch.end_line ch.text e).chunks =
          db.chunks ++ [⟨db.next_chunk_id, rid, f, mt, ch.start_line, ch.end_line,
            ch.text, e⟩] := rfl
      have hcons1 : mtimeConsistent
          (insert_chunk db rid f mt ch.start_line ch.end_line ch.text e).chunks := by
        rw [hrow]
        intro c1 h1 c2 h2 hrepo hpath
        rcases List.mem_append.mp h1 with h1 | h1 <;>
          rcases List.mem_append.mp h2 with h2 | h2
        · exact hcons c1 h1 c2 h2 hrepo hpath
        · simp only [List.mem_singleton] at h2
          subst h2
          have := hproc f hf c1 h1 (by simpa using hrepo) (by simpa using hpath)
          rw [hUf] at this
          have h' := Option.some.inj this
          simpa using h'.symm
        · simp only [List.mem_singleton] at h1
          subst h1
          have := hproc f hf c2 h2 (by simpa using hrepo.symm) (by simpa using hpath.symm)
          rw [hUf] at this
          have h' := Option.some.inj this
          simpa using h'
        · simp only [List.mem_singleton] at h1 h2
          subst h1; subst h2; rfl
      have hproc1 : ∀ f' ∈ processed, ∀ c ∈
          (insert_chunk db rid f mt ch.start_line ch.end_line ch.text e).chunks,
          c.repo_id = rid → c.file_path = f' → fs.mtime f' = some c.file_mtime := by
        intro f' hf' c hc hrepo hpath
        rw [hrow] at hc
        rcases List.mem_append.mp hc with hc | hc
        · exact hproc f' hf' c hc hrepo hpath
        · simp only [List.mem_singleton] at hc
          subst hc
          simp only at hpath
          rw [← hpath]
          exact hUf
      have := storePhase_mtime rid fs rest
        (insert_chunk db rid f mt ch.start_line ch.end_line ch.text e) processed
        hcons1 hUrest hproc1
      exact this
    · rw [if_neg hf]
      set db0 := delete_file_chunks db rid f with hdb0
      have hrow : (insert_chunk db0 rid f mt ch.start_line ch.end_line ch.text e).chunks =
          db0.chunks ++ [⟨db0.next_chunk_id, rid, f, mt, ch.start_line, ch.end_line,
            ch.text, e⟩] := rfl
      have hnof : ∀ c ∈ db0.chunks, ¬(c.repo_id = rid ∧ c.file_path = f) := by
        intro c hc
        rw [hdb0, delete_file_chunks_chunks] at hc
        have := (List.mem_filter.mp hc).2
        intro ⟨h1, h2⟩
        simp [h1, h2] at this
      have hcons0 : mtimeConsistent db0.chunks := mtimeConsistent_delete db rid f hcons
      have hcons1 : mtimeConsistent
          (insert_chunk db0 rid f mt ch.start_line ch.end_line ch.text e).chunks := by
        rw [hrow]
        intro c1 h1 c2 h2 hrepo hpath
        rcases List.mem_append.mp h1 with h1 | h1 <;>
          rcases List.mem_append.mp h2 with h2 | h2
        · exact hcons0 c1 h1 c2 h2 hrepo hpath
        · simp only [List.mem_singleton] at h2
          subst h2
          exact absurd ⟨by simpa using hrepo, by simpa using hpath⟩ (hnof c1 h1)
        · simp only [List.mem_singleton] at h1
          subst h1
          exact absurd ⟨by simpa using hrepo.symm, by simpa using hpath.symm⟩ (hnof c2 h2)
        · simp only [List.mem_singleton] at h1 h2
          subst h1; subst h2; rfl
      have hproc1 : ∀ f' ∈ f :: processed, ∀ c ∈
          (insert_chunk db0 rid f mt ch.start_line ch.end_line ch.text e).chunks,
          c.repo_id = rid → c.file_path = f' → fs.mtime f' = some c.file_mtime := by
        intro f' hf' c hc hrepo hpath
        rw [hrow] at hc
        rcases List.mem_append.mp hc with hc | hc
        · rcases List.mem_cons.mp hf' with rfl | hf'
          · exact absurd ⟨hrepo, hpath⟩ (hnof c hc)
          · have hcdb : c ∈ db.chunks := by
              rw [hdb0, delete_file_chunks_chunks] at hc
              exact (List.mem_filter.mp hc).1
            exact hproc f' hf' c hcdb hrepo hpath
        · simp only [List.mem_singleton] at hc
          subst hc
          simp only at hpath
          rw [← hpath]
          exact hUf
      exact storePhase_mtime rid fs rest
        (insert_chunk db0 rid f mt ch.start_line ch.end_line ch.text e) (f :: processed)
        hcons1 hUrest hproc1

/-- C8: every indexing operation preserves the invariant that all stored
chunks of a `(repo_id, file_path)` pair share the same `file_mtime`: a
file's chunk set is deleted once at its first queued chunk and
re-inserted as one group stamped with the single modification time read
for that file, so the store never mixes old and new chunks of a file. -/
theorem index_repo_mtime_invariant {E : Type} (db : DB E) (fs : FS) (repo_path : String)
    (embed : String → E) (chunker : String → String → List Chunk) (force : Bool)
    (h : mtimeConsistent db.chunks) :
    mtimeConsistent (index_repo db fs repo_path embed chunker force).1.chunks := by
  rw [index_repo]
  set pr := get_or_create_repo db repo_path with hpr
  set rid := pr.2
  have hdb1 : pr.1.chunks = db.chunks := get_or_create_repo_chunks db repo_path
  set removed := (get_repo_files pr.1 rid).filter (fun f => f ∉ fs.tracked) with hrem
  set db2 := removed.foldl (fun d f => delete_file_chunks d rid f) pr.1 with hdb2
  have hcons2 : mtimeConsistent db2.chunks := by
    rw [hdb2]
    exact mtimeConsistent_removals rid removed pr.1 (by rw [hdb1]; exact h)
  set triples := collectFiles db2 rid fs chunker force fs.tracked with htriples
  by_cases hempty : triples.isEmpty
  · simp only [← htriples, hempty, if_pos rfl]
    exact hcons2
  · simp only [← htriples, hempty, Bool.false_eq_true, if_false, if_neg]
    have hU : ∀ q ∈ triples.map (fun t => (t, embed t.2.2.text)),
        fs.mtime q.1.1 = some q.1.2.1 := by
      intro q hq
      obtain ⟨t, ht, rfl⟩ := List.mem_map.mp hq
      exact collectFiles_mtime db2 rid fs chunker force fs.tracked t ht
    have := storePhase_mtime rid fs (triples.map (fun t => (t, embed t.2.2.text))) db2 []
      hcons2 hU (by simp)
    exact this

/-- Witness for C8: a concrete consistent store with one changed tracked
file stays consistent after reindexing. -/
theorem index_repo_mtime_invariant_witness :
    mtimeConsistent ([⟨1, 1, "a.py", 5, 1, 2, "t", 0⟩, ⟨2, 1, "a.py", 5, 3, 4, "u", 0⟩] :
      List (StoredChunk ℕ)) ∧
    mtimeConsistent (index_repo
      (⟨[(1, "repo")], 2, [⟨1, 1, "a.py", 5, 1, 2, "t", 0⟩,
        ⟨2, 1, "a.py", 5, 3, 4, "u", 0⟩], 3⟩ : DB ℕ)
      ⟨["a.py"], fun _ => some 9, fun _ => some "body"⟩ "repo" (fun _ => 0)
      (fun _ c => [⟨c, 1, 1⟩]) false).1.chunks :=
  ⟨by decide,
   index_repo_mtime_invariant
     (⟨[(1, "repo")], 2, [⟨1, 1, "a.py", 5, 1, 2, "t", 0⟩,
       ⟨2, 1, "a.py", 5, 3, 4, "u", 0⟩], 3⟩ : DB ℕ)
     ⟨["a.py"], fun _ => some 9, fun _ => some "body"⟩ "repo" (fun _ => 0)
     (fun _ c => [⟨c, 1, 1⟩]) false (by decide)⟩

/-! ## C6: incremental indexing frame conditions -/

theorem get_file_mtime_congr {E : Type} {db1 db : DB E} (h : db1.chunks = db.chunks)
    (rid : ℕ) (f : String) : get_file_mtime db1 rid f = get_file_mtime db rid f := by
  rw [get_file_mtime, get_file_mtime, h]

theorem unchangedSince_congr {E : Type} {db1 db : DB E} (h : db1.chunks = db.chunks)
    (rid : ℕ) (f : String) (t : ℚ) :
    unchangedSince db1 rid f t = unchangedSince db rid f t := by
  rw [unchangedSince, unchangedSince, get_file_mtime_congr h]

theorem mem_get_repo_files {E : Type} (db : DB E) (rid : ℕ) (f : String) :
    f ∈ get_repo_files db rid ↔ ∃ c ∈ db.chunks, c.repo_id = rid ∧ c.file_path = f := by
  rw [get_repo_files, List.mem_dedup]
  constructor
  · intro h
    obtain ⟨c, hc, rfl⟩ := List.mem_map.mp h
    have := List.mem_filter.mp hc
    exact ⟨c, this.1, by simpa using this.2, rfl⟩
  · rintro ⟨c, hc, hrid, rfl⟩
    exact List.mem_map.mpr ⟨c, List.mem_filter.mpr ⟨hc, by simpa using hrid⟩, rfl⟩

theorem collectFiles_nil {E : Type} (db : DB E) (rid : ℕ) (fs : FS)
    (chunker : String → String → List Chunk) :
    ∀ tracked : List String,
      (∀ f ∈ tracked, ∀ t : ℚ, fs.mtime f = some t → unchangedSince db rid f t = true) →
      collectFiles db rid fs chunker false tracked = []
  | [] => fun _ => rfl
  | f :: rest => fun h => by
    rw [collectFiles]
    have hrest := collectFiles_nil db rid fs chunker rest
      (fun g hg => h g (List.mem_cons_of_mem _ hg))
    rw [hrest, List.append_nil]
    cases hmt : fs.mtime f with
    | none => rfl
    | some t =>
        have := h f (List.mem_cons_self _ _) t hmt
        simp [this]

/-- The per-file store loop when every queued file was already
processed: it only appends the chunk rows. -/
def insertAll {E : Type} (rid : ℕ) (db : DB E) (l : List ((String × ℚ × Chunk) × E)) : DB E :=
  l.foldl (fun d q =>
    insert_chunk d rid q.1.1 q.1.2.1 q.1.2.2.start_line q.1.2.2.end_line q.1.2.2.text q.2) db

theorem storePhase_all_processed {E : Type} (rid : ℕ) :
    ∀ (l : List ((String × ℚ × Chunk) × E)) (db : DB E) (processed : List String),
      (∀ q ∈ l, q.1.1 ∈ processed) →
      storePhase rid db processed l = (insertAll rid db l, 0, l.length)
  | [], db, processed => fun _ => rfl
  | ((f, mt, ch), e) :: rest, db, processed => fun h => by
    rw [storePhase, if_pos (h _ (List.mem_cons_self _ _))]
    show (match storePhase rid
        (insert_chunk db rid f mt ch.start_line ch.end_line ch.text e) processed rest with
      | (dbf, u, a) => (dbf, u, a + 1)) = _
    rw [storePhase_all_processed rid rest _ processed
      (fun q hq => h q (List.mem_cons_of_mem _ hq))]
    rfl

theorem insertAll_filter_other {E : Type} (rid : ℕ) (fstar : String) :
    ∀ (l : List ((String × ℚ × Chunk) × E)) (db : DB E), (∀ q ∈ l, q.1.1 = fstar) →
      (insertAll rid db l).chunks.filter
          (fun c => !(c.repo_id == rid && c.file_path == fstar)) =
        db.chunks.filter (fun c => !(c.repo_id == rid && c.file_path == fstar))
  | [], db => fun _ => rfl
  | ((f, mt, ch), e) :: rest, db => fun h => by
    have hf : f = fstar := h _ (List.mem_cons_self _ _)
    subst hf
    rw [show insertAll rid db (((f, mt, ch), e) :: rest) =
      insertAll rid (insert_chunk db rid f mt ch.start_line ch.end_line ch.text e) rest
      from rfl]
    rw [insertAll_filter_other rid f rest _ (fun q hq => h q (List.mem_cons_of_mem _ hq))]
    rw [insert_chunk_chunks, List.filter_append]
    simp

theorem insertAll_filter_self {E : Type} (rid : ℕ) (fstar : String) :
    ∀ (l : List ((String × ℚ × Chunk) × E)) (db : DB E), (∀ q ∈ l, q.1.1 = fstar) →
      ((insertAll rid db l).chunks.filter
          (fun c => c.repo_id == rid && c.file_path == fstar)).map
          (fun c => (c.file_mtime, c.start_line, c.end_line, c.chunk_text, c.embedding)) =
        (db.chunks.filter (fun c => c.repo_id == rid && c.file_path == fstar)).map
          (fun c => (c.file_mtime, c.start_line, c.end_line, c.chunk_text, c.embedding)) ++
        l.map (fun q => (q.1.2.1, q.1.2.2.start_line, q.1.2.2.end_line, q.1.2.2.text, q.2))
  | [], db => fun _ => by simp [insertAll]
  | ((f, mt, ch), e) :: rest, db => fun h => by
    have hf : f = fstar := h _ (List.mem_cons_self _ _)
    subst hf
    rw [show insertAll rid db (((f, mt, ch), e) :: rest) =
      insertAll rid (insert_chunk db rid f mt ch.start_line ch.end_line ch.text e) rest
      from rfl]
    rw [insertAll_filter_self rid f rest _ (fun q hq => h q (List.mem_cons_of_mem _ hq))]
    rw [insert_chunk_chunks, List.filter_append, List.map_append]
    simp

theorem collectFiles_single {E : Type} (db : DB E) (rid : ℕ) (fs : FS)
    (chunker : String → String → List Chunk) (fstar : String) (tstar : ℚ)
    (content : String) (hmt : fs.mtime fstar = some tstar)
    (hch : unchangedSince db rid fstar tstar = false)
    (hct : fs.content fstar = some content) :
    ∀ tracked : List String, tracked.Nodup → fstar ∈ tracked →
      (∀ g ∈ tracked, g ≠ fstar → ∀ t : ℚ, fs.mtime g = some t →
        unchangedSince db rid g t = true) →
      collectFiles db rid fs chunker false tracked =
        (chunker fstar content).map (fun ch => (fstar, tstar, ch))
  | [], _, hmem => absurd hmem (by simp)
  | g :: rest, hnd, hmem => fun hothers => by
    rw [collectFiles]
    by_cases hg : g = fstar
    · subst hg
      have hrestnil : collectFiles db rid fs chunker false rest = [] := by
        apply collectFiles_nil
        intro f hf t hmtf
        have hne : f ≠ g := by
          intro heq
          subst heq
          exact (List.nodup_cons.mp hnd).1 hf
        exact hothers f (List.mem_cons_of_mem _ hf) hne t hmtf
      rw [hrestnil, List.append_nil, hmt, hct]
      simp [hch]
    · have hmem' : fstar ∈ rest := by
        rcases List.mem_cons.mp hmem with h | h
        · exact absurd h.symm hg
        · exact h
      rw [collectFiles_single db rid fs chunker fstar tstar content hmt hch hct rest
        (List.nodup_cons.mp hnd).2 hmem'
        (fun g' hg' => hothers g' (List.mem_cons_of_mem _ hg'))]
      have hgnil :
          (match fs.mtime g with
            | none => ([] : List (String × ℚ × Chunk))
            | some current =>
              if !false && unchangedSince db rid g current then []
              else
                match fs.content g with
                | none => []
                | some content => (chunker g content).map (fun ch => (g, current, ch))) =
          [] := by
        cases hmtg : fs.mtime g with
        | none => rfl
        | some t =>
            have := hothers g (List.mem_cons_self _ _) hg t hmtg
            simp [this]
      rw [hgnil, List.nil_append]

theorem storePhase_fresh_single {E : Type} (rid : ℕ) (fstar : String) :
    ∀ (l : List ((String × ℚ × Chunk) × E)) (db : DB E), (∀ q ∈ l, q.1.1 = fstar) →
      l ≠ [] →
      storePhase rid db [] l =
        (insertAll rid (delete_file_chunks db rid fstar) l, 1, l.length)
  | [], _, _, hne => absurd rfl hne
  | ((f0, mt0, ch0), e0) :: rest, db, h, _ => by
    have hf0 : f0 = fstar := h _ (List.mem_cons_self _ _)
    subst hf0
    rw [storePhase, if_neg (List.not_mem_nil f0)]
    show (match storePhase rid
        (insert_chunk (delete_file_chunks db rid f0) rid f0 mt0 ch0.start_line
          ch0.end_line ch0.text e0) [f0] rest with
      | (dbf, u, a) => (dbf, u + 1, a + 1)) = _
    rw [storePhase_all_processed rid rest _ [f0]
      (fun q hq => by rw [h q (List.mem_cons_of_mem _ hq)]; exact List.mem_singleton.mpr rfl)]
    rfl

/-- Counterexample to C6 as stated: with one stored file that is no
longer tracked, the stated premise (about tracked files only) holds
vacuously, yet the pass deletes that file's rows, so the stored chunk
rows do not all stay unchanged. -/
theorem index_repo_unchanged_counterexample :
    (∀ f ∈ (⟨[], fun _ => none, fun _ => none⟩ : FS).tracked, ∀ t : ℚ,
      (⟨[], fun _ => none, fun _ => none⟩ : FS).mtime f = some t →
      ∃ m, get_file_mtime
        (⟨[(1, "repo")], 2, [⟨1, 1, "gone.py", 5, 1, 3, "text", 0⟩], 2⟩ : DB ℕ) 1 f =
          some m ∧ t ≤ m) ∧
    (index_repo (⟨[(1, "repo")], 2, [⟨1, 1, "gone.py", 5, 1, 3, "text", 0⟩], 2⟩ : DB ℕ)
        ⟨[], fun _ => none, fun _ => none⟩ "repo" (fun _ => (0 : ℕ)) (fun _ _ => [])
        false).1.chunks = [] ∧
    (⟨[(1, "repo")], 2, [⟨1, 1, "gone.py", 5, 1, 3, "text", 0⟩], 2⟩ : DB ℕ).chunks ≠ [] := by
  refine ⟨?_, by decide, by decide⟩
  intro f hf
  simp at hf

/-- C6 (amended): on a repository whose stored files are all still
tracked (with duplicate-free tracked paths for the one-file case), a
pass with `force = false` over tracked files that are all unchanged
makes no embedding call, reports zero updated files and added chunks and
zero removals, and leaves the chunk table identical; if exactly one
tracked file has changed (and is readable and chunks to a nonempty
list), only that file's texts are embedded, exactly one file is updated
with one chunk row group, every other stored row is byte-identical, and
the file's rows are exactly its new chunks stamped with the single new
modification time and their embeddings. -/
theorem index_repo_incremental_spec {E : Type} (db : DB E) (fs : FS) (repo_path : String)
    (embed : String → E) (chunker : String → String → List Chunk) (rid : ℕ)
    (hrid : rid = (get_or_create_repo db repo_path).2)
    (hstored : ∀ c ∈ db.chunks, c.repo_id = rid → c.file_path ∈ fs.tracked) :
    ((∀ f ∈ fs.tracked, ∀ t : ℚ, fs.mtime f = some t → unchangedSince db rid f t = true) →
      (index_repo db fs repo_path embed chunker false).2.2 = [] ∧
      (index_repo db fs repo_path embed chunker false).2.1.files_updated = 0 ∧
      (index_repo db fs repo_path embed chunker false).2.1.chunks_added = 0 ∧
      (index_repo db fs repo_path embed chunker false).2.1.files_removed = 0 ∧
      (index_repo db fs repo_path embed chunker false).1.chunks = db.chunks) ∧
    (∀ fstar (tstar : ℚ) content, fs.tracked.Nodup → fstar ∈ fs.tracked →
      fs.mtime fstar = some tstar →
      unchangedSince db rid fstar tstar = false →
      fs.content fstar = some content →
      chunker fstar content ≠ [] →
      (∀ g ∈ fs.tracked, g ≠ fstar → ∀ t : ℚ, fs.mtime g = some t →
        unchangedSince db rid g t = true) →
      (index_repo db fs repo_path embed chunker false).2.2 =
        (chunker fstar content).map Chunk.text ∧
      (index_repo db fs repo_path embed chunker false).2.1.files_updated = 1 ∧
      (index_repo db fs repo_path embed chunker false).2.1.chunks_added =
        (chunker fstar content).length ∧
      (index_repo db fs repo_path embed chunker false).1.chunks.filter
          (fun c => !(c.repo_id == rid && c.file_path == fstar)) =
        db.chunks.filter (fun c => !(c.repo_id == rid && c.file_path == fstar)) ∧
      ((index_repo db fs repo_path embed chunker false).1.chunks.filter
          (fun c => c.repo_id == rid && c.file_path == fstar)).map
          (fun c => (c.file_mtime, c.start_line, c.end_line, c.chunk_text, c.embedding)) =
        (chunker fstar content).map
          (fun ch => (tstar, ch.start_line, ch.end_line, ch.text, embed ch.text))) := by
  rw [index_repo]
  set pr := get_or_create_repo db repo_path with hpr
  have hdb1chunks : pr.1.chunks = db.chunks := get_or_create_repo_chunks db repo_path
  have hremoved : (get_repo_files pr.1 pr.2).filter (fun f => f ∉ fs.tracked) = [] := by
    rw [List.filter_eq_nil_iff]
    intro f hf
    obtain ⟨c, hc, hcr, rfl⟩ := (mem_get_repo_files pr.1 pr.2 f).mp hf
    rw [hdb1chunks] at hc
    have := hstored c hc (by rw [hrid]; exact hcr)
    simp [this]
  rw [hremoved]
  simp only [List.foldl_nil]
  have hunch_congr : ∀ f t, unchangedSince pr.1 pr.2 f t = unchangedSince db rid f t := by
    intro f t
    rw [hrid]
    exact unchangedSince_congr hdb1chunks pr.2 f t
  constructor
  · intro hall
    have htrip : collectFiles pr.1 pr.2 fs chunker false fs.tracked = [] := by
      apply collectFiles_nil
      intro f hf t hmt
      rw [hunch_congr]
      exact hall f hf t hmt
    rw [htrip]
    simp only [List.isEmpty_nil, if_pos rfl]
    exact ⟨rfl, rfl, rfl, rfl, hdb1chunks⟩
  · intro fstar tstar content hnd hmem hmt hch hct hchunks hothers
    have htrip : collectFiles pr.1 pr.2 fs chunker false fs.tracked =
        (chunker fstar content).map (fun ch => (fstar, tstar, ch)) := by
      apply collectFiles_single pr.1 pr.2 fs chunker fstar tstar content hmt
        (by rw [hunch_congr]; exact hch) hct fs.tracked hnd hmem
      intro g hg hne t hmtg
      rw [hunch_congr]
      exact hothers g hg hne t hmtg
    rw [htrip]
    have hne : ((chunker fstar content).map (fun ch => (fstar, tstar, ch))).isEmpty = false := by
      cases hc : chunker fstar content with
      | nil => exact absurd hc hchunks
      | cons a l => simp [hc]
    rw [hne]
    simp only [Bool.false_eq_true, if_false]
    set withEmb := ((chunker fstar content).map (fun ch => (fstar, tstar, ch))).map
      (fun t => (t, embed t.2.2.text)) with hwe
    have hpaths : ∀ q ∈ withEmb, q.1.1 = fstar := by
      intro q hq
      rw [hwe] at hq
      obtain ⟨t, ht, rfl⟩ := List.mem_map.mp hq
      obtain ⟨ch, _, rfl⟩ := List.mem_map.mp ht
      rfl
    have hwene : withEmb ≠ [] := by
      rw [hwe]
      cases hc : chunker fstar content with
      | nil => exact absurd hc hchunks
      | cons a l => simp [hc]
    rw [storePhase_fresh_single pr.2 fstar withEmb pr.1 hpaths hwene]
    have hwemap : withEmb = (chunker fstar content).map
        (fun ch => ((fstar, tstar, ch), embed ch.text)) := by
      rw [hwe, List.map_map]
      rfl
    have hbatch : (((chunker fstar content).map (fun ch => (fstar, tstar, ch))).map
        (fun t => t.2.2.text)) = (chunker fstar content).map Chunk.text := by
      rw [List.map_map]
      rfl
    have hlen : withEmb.length = (chunker fstar content).length := by
      rw [hwemap, List.length_map]
    have hdel : (delete_file_chunks pr.1 pr.2 fstar).chunks =
        db.chunks.filter (fun c => !(c.repo_id == pr.2 && c.file_path == fstar)) := by
      rw [delete_file_chunks_chunks, hdb1chunks]
    refine ⟨hbatch, rfl, by simpa using hlen, ?_, ?_⟩
    · rw [hrid]
      dsimp only
      rw [insertAll_filter_other pr.2 fstar withEmb _ hpaths, hdel, List.filter_filter]
      congr 1
      funext c
      exact Bool.and_self _
    · rw [hrid]
      dsimp only
      rw [insertAll_filter_self pr.2 fstar withEmb _ hpaths, hdel]
      have hzero : ((db.chunks.filter
          (fun c => !(c.repo_id == pr.2 && c.file_path == fstar))).filter
          (fun c => c.repo_id == pr.2 && c.file_path == fstar)) = [] := by
        rw [List.filter_filter]
        have hfalse : (fun c : StoredChunk E =>
            (c.repo_id == pr.2 && c.file_path == fstar) &&
              !(c.repo_id == pr.2 && c.file_path == fstar)) = fun _ => false := by
          funext c
          exact Bool.and_not_self _
        rw [hfalse]
        exact List.filter_false _
      rw [hzero, List.map_nil, List.nil_append, hwemap, List.map_map]
      rfl

/-- Witness for C6 (amended): a concrete unchanged repository is left
with byte-identical rows, no embeddings and zero update counts. -/
theorem index_repo_incremental_spec_witness :
    ((∀ f ∈ ["a.py"], ∀ t : ℚ, (fun _ => some (5 : ℚ)) f = some t →
      unchangedSince (⟨[(1, "repo")], 2, [⟨1, 1, "a.py", 5, 1, 2, "t", (0 : ℕ)⟩], 2⟩ : DB ℕ)
        1 f t = true)) ∧
    (index_repo (⟨[(1, "repo")], 2, [⟨1, 1, "a.py", 5, 1, 2, "t", (0 : ℕ)⟩], 2⟩ : DB ℕ)
      ⟨["a.py"], fun _ => some 5, fun _ => some "body"⟩ "repo" (fun _ => (0 : ℕ))
      (fun _ c => [⟨c, 1, 1⟩]) false).2.2 = [] ∧
    (index_repo (⟨[(1, "repo")], 2, [⟨1, 1, "a.py", 5, 1, 2, "t", (0 : ℕ)⟩], 2⟩ : DB ℕ)
      ⟨["a.py"], fun _ => some 5, fun _ => some "body"⟩ "repo" (fun _ => (0 : ℕ))
      (fun _ c => [⟨c, 1, 1⟩]) false).2.1.files_updated = 0 ∧
    (index_repo (⟨[(1, "repo")], 2, [⟨1, 1, "a.py", 5, 1, 2, "t", (0 : ℕ)⟩], 2⟩ : DB ℕ)
      ⟨["a.py"], fun _ => some 5, fun _ => some "body"⟩ "repo" (fun _ => (0 : ℕ))
      (fun _ c => [⟨c, 1, 1⟩]) false).2.1.chunks_added = 0 ∧
    (index_repo (⟨[(1, "repo")], 2, [⟨1, 1, "a.py", 5, 1, 2, "t", (0 : ℕ)⟩], 2⟩ : DB ℕ)
      ⟨["a.py"], fun _ => some 5, fun _ => some "body"⟩ "repo" (fun _ => (0 : ℕ))
      (fun _ c => [⟨c, 1, 1⟩]) false).2.1.files_removed = 0 ∧
    (index_repo (⟨[(1, "repo")], 2, [⟨1, 1, "a.py", 5, 1, 2, "t", (0 : ℕ)⟩], 2⟩ : DB ℕ)
      ⟨["a.py"], fun _ => some 5, fun _ => some "body"⟩ "repo" (fun _ => (0 : ℕ))
      (fun _ c => [⟨c, 1, 1⟩]) false).1.chunks =
      [⟨1, 1, "a.py", 5, 1, 2, "t", (0 : ℕ)⟩] :=
  ⟨by decide,
   (index_repo_incremental_spec
     (⟨[(1, "repo")], 2, [⟨1, 1, "a.py", 5, 1, 2, "t", (0 : ℕ)⟩], 2⟩ : DB ℕ)
     ⟨["a.py"], fun _ => some 5, fun _ => some "body"⟩ "repo" (fun _ => (0 : ℕ))
     (fun _ c => [⟨c, 1, 1⟩]) 1 (by decide) (by decide)).1 (by decide)⟩

/-- In the Calculator corpus, the class-level chunk (doc 0) contains no
occurrence of the token `subtract`, so its BM25 score for the query is 0
(the `tf == 0` skip). -/
theorem calc_s0 : score_doc (bm25IndexOf calcTexts) ["subtract"] 0 = 0 := by
  rw [score_doc]
  simp only [List.foldl_cons, List.foldl_nil]
  rw [if_neg (by decide), if_pos (by decide)]

/-- The `add` method chunk (doc 1) likewise scores 0 for `subtract`. -/
theorem calc_s1 : score_doc (bm25IndexOf calcTexts) ["subtract"] 1 = 0 := by
  rw [score_doc]
  simp only [List.foldl_cons, List.foldl_nil]
  rw [if_neg (by decide), if_pos (by decide)]

/-- The `subtract` method chunk (doc 2) scores strictly positively for the
query `subtract`: idf `= log((3 + 1)/(1 + 0.5)) > 0` and the tf-norm factor
is positive. -/
theorem calc_s2_pos : 0 < score_doc (bm25IndexOf calcTexts) ["subtract"] 2 := by
  rw [score_doc]
  simp only [List.foldl_cons, List.foldl_nil]
  rw [if_neg (by decide), if_neg (by decide)]
  rw [zero_add]
  apply mul_pos
  · apply Real.log_pos
    rw [show (bm25IndexOf calcTexts).num_docs = 3 from by decide,
      show (bm25IndexOf calcTexts).doc_freqs "subtract" = 1 from by decide]
    norm_num
  · rw [show ((bm25IndexOf calcTexts).doc_term_freqs.getD 2 (fun _ => 0)) "subtract" = 1
      from by decide,
      show (bm25IndexOf calcTexts).doc_lens.getD 2 0 = 6 from by decide]
    have h5 : (bm25IndexOf calcTexts).avg_doc_len = 6 := by
      show ((((calcTexts.map tokenize).map List.length).sum : ℕ) : ℝ) /
        ((max calcTexts.length 1 : ℕ) : ℝ) = 6
      rw [show ((calcTexts.map tokenize).map List.length).sum = 18 from by decide,
        show max calcTexts.length 1 = 3 from by decide]
      norm_num
    rw [h5, show (bm25IndexOf calcTexts).k1 = 1.5 from rfl,
      show (bm25IndexOf calcTexts).b = 0.75 from rfl]
    norm_num

/-- BM25 ranking over the Calculator corpus for query `subtract` (top 3):
the `subtract` chunk ranks first, the two zero-score chunks follow in
ascending index order (stable sort). -/
theorem calc_rank : BM25Index.search (bm25IndexOf calcTexts) "subtract" 3 =
    [(2, score_doc (bm25IndexOf calcTexts) ["subtract"] 2), (0, 0), (1, 0)] := by
  set s2 := score_doc (bm25IndexOf calcTexts) ["subtract"] 2 with hs2def
  have hs2 := calc_s2_pos
  rw [← hs2def] at hs2
  have hns : ¬ scoreGE (1, (0 : ℝ)) (2, s2) := fun h => absurd hs2 (not_lt.mpr h)
  have hns0 : ¬ scoreGE (0, (0 : ℝ)) (2, s2) := fun h => absurd hs2 (not_lt.mpr h)
  have hp : scoreGE (0, (0 : ℝ)) (1, 0) := le_refl _
  rw [BM25Index.search]
  rw [show tokenize "subtract" = ["subtract"] from by decide]
  rw [show List.range (bm25IndexOf calcTexts).num_docs = [0, 1, 2] from by decide]
  simp only [List.map_cons, List.map_nil]
  rw [calc_s0, calc_s1, ← hs2def]
  show (List.orderedInsert scoreGE (0, (0 : ℝ))
    (List.orderedInsert scoreGE (1, (0 : ℝ))
      (List.orderedInsert scoreGE (2, s2) []))).take 3 = _
  rw [show List.orderedInsert scoreGE (2, s2) [] = [(2, s2)] from rfl]
  rw [List.orderedInsert, if_neg hns]
  rw [show List.orderedInsert scoreGE (1, (0 : ℝ)) [] = [(1, 0)] from rfl]
  rw [List.orderedInsert, if_neg hns0]
  rw [List.orderedInsert, if_pos hp]
  rfl

/-- Running the full `search` pipeline in lexical mode on an empty database
over `calcFS` reduces, definitionally, to `calcResults` applied to the BM25
ranking of the Calculator corpus: reconciliation indexes `calc.py` (three
chunks), the cache misses, and the lexical branch is taken. -/
theorem calc_search_step :
    (Scot.search ⟨[], 1, [], 1⟩ calcFS (fun _ => Except.ok calcTree) (fun _ => [])
      (fun _ => [(1 : ℝ)]) (fun _ _ => true) "repo" "subtract" 5 "" "lexical" []).1 =
    calcResults (BM25Index.search (bm25IndexOf calcTexts) "subtract" 3) := rfl

/-- C9: end-to-end. Starting from an empty database, indexing the single
Python file `calc.py` (whose AST defines `class Calculator` with methods
`add` and `subtract`) and searching `"subtract"` in lexical mode returns
the `subtract` method's chunk (lines 5–6 of the file) ranked first with a
strictly positive score, and that chunk's text is the synthetic
`class Calculator:` context header prefixed to the re-indented method body;
moreover the chunker emits exactly the class chunk and the two
header-prefixed method chunks. -/
theorem search_calculator_lexical :
    ∃ s : ℝ, 0 < s ∧
      (Scot.search (⟨[], 1, [], 1⟩ : DB (List ℝ)) calcFS (fun _ => Except.ok calcTree)
        (fun _ => []) (fun _ => [(1 : ℝ)]) (fun _ _ => true) "repo" "subtract" 5 "" "lexical"
        []).1.head? = some ⟨"calc.py", 5, 6, s, calcSubText⟩ ∧
      calcSubText = "class Calculator:\n" ++
        "        def subtract(self, a, b):\n            return a - b" ∧
      chunk_file (fun _ => Except.ok calcTree) "calc.py" calcContent =
        [⟨calcClassText, 1, 4⟩, ⟨calcAddText, 2, 3⟩, ⟨calcSubText, 5, 6⟩] := by
  refine ⟨score_doc (bm25IndexOf calcTexts) ["subtract"] 2, calc_s2_pos, ?_, by decide,
    by decide⟩
  rw [calc_search_step, calc_rank]
  rfl

end Scot
